import Mathlib

/-! gosort: chunked sort with a k-way merge.

A shallow embedding of `gosort.go` and the properties its specification
states: the core (`splitIntoChunks`, `sortChunksConcurrently`,
`mergeSortedChunks`, `process`), the text format of the input and output files
(`readNumbersFromFile`, `writeNumbersToFile`) and the three modes
(`runRandom`, `runInputFile`, `runDirectory`).

Modelling conventions.

* A Go `[]int` is a `List Int`; only its values are modelled.  The program
  never does arithmetic on the elements, it only compares them, so the
  elements are unbounded integers; where the range of an `int` matters (text
  that is scanned as an integer) it is 64 bits.  Lengths, indices and cursors
  are natural numbers (they are never negative in the program).
* A run-time panic (index or slice bounds out of range) is the result
  `Except.error Fault.outOfRange`.
* The only unbounded loop, the `for { ... }` of `mergeSortedChunks`, is
  unrolled a bounded number of times; running out of unrollings is the
  distinct result `Except.error Fault.outOfFuel`.
* `math.Sqrt` on `float64` is modelled exactly, as the IEEE 754 correctly
  rounded square root on 53-bit significands, over the integers.
* `sort.Ints` is the Go standard library; it is modelled by an insertion sort.
  A sorted permutation of a list of integers is unique, so every correct
  sorting routine returns the same list (`sortInts_unique`).
* The value `sortChunksConcurrently` returns is modelled by a function; its
  goroutines and wait group are modelled separately, by a step relation
  (`Conc.step`) whose runs are the interleavings of the steps of the caller
  and of the goroutines.
* The file system and the console are modelled by what a run finds (`File`,
  `Dir`) and by what it leaves behind (`Outcome`).
-/

namespace GoSort

/-! ## Results of a run -/

/-- Ways in which a run of the modelled code fails to return a value. -/
inductive Fault where
  | outOfRange
  | outOfFuel
  deriving DecidableEq, Repr

/-- A run either returns a value or stops with a fault. -/
abbrev Run (α : Type) : Type := Except Fault α

/-- Index expression `l[i]` of Go: panics when `i` is not below `len(l)`. -/
def index {α : Type} (l : List α) (i : Nat) : Run α :=
  match l[i]? with
  | some a => .ok a
  | none => .error .outOfRange

/-- Slice expression `numbers[lo:hi]` of Go: the elements at positions
`lo, ..., hi-1`.  Go panics unless `lo ≤ hi ≤ cap(numbers)`; the model faults
unless `lo ≤ hi ≤ len(numbers)`, so it faults whenever Go panics. -/
def slice (numbers : List Int) (lo hi : Nat) : Run (List Int) :=
  if lo ≤ hi ∧ hi ≤ numbers.length then .ok ((numbers.drop lo).take (hi - lo))
  else .error .outOfRange

/-! ## `int(math.Ceil(math.Sqrt(float64(n))))` -/

/-- Number of binary digits of `x`, exact for `x < 2 ^ fuel`. -/
def bitLength : Nat → Nat → Nat
  | 0, _ => 0
  | fuel + 1, x => if x = 0 then 0 else bitLength fuel (x / 2) + 1

/-- Digit-by-digit integer square root: `r` is the part found so far and
`k` the number of lower binary digits still to decide. -/
def isqrtBits (n : Nat) : Nat → Nat → Nat
  | 0, r => r
  | k + 1, r => isqrtBits n k (if (r + 2 ^ k) * (r + 2 ^ k) ≤ n then r + 2 ^ k else r)

/-- Integer square root (rounded down), exact for `n < 2 ^ 256`. -/
def isqrt (n : Nat) : Nat := isqrtBits n 128 0

/-- The conversion `float64(n)` of a non-negative Go `int` (`n < 2 ^ 63`),
as the integer the resulting float64 holds: `n` itself when it has at most 53
binary digits, otherwise `n` rounded to 53 significant digits, to nearest,
ties to even. -/
def float64OfInt (n : Nat) : Nat :=
  let b := bitLength 64 n
  if b ≤ 53 then n
  else
    let ulp := 2 ^ (b - 53)
    let q := n / ulp
    let r := n % ulp
    if 2 * r < ulp ∨ (2 * r = ulp ∧ q % 2 = 0) then q * ulp else (q + 1) * ulp

/-- The function `math.Sqrt` on a float64 holding the integer `x < 2 ^ 64`.
The result is the float64 nearest to the real square root; it is returned as
the pair `(q, f)` standing for `q / 2 ^ f`, where `f` is chosen so that the
significand `q` has 53 binary digits.  A square root of an integer is never
halfway between two integers, so no tie occurs: `√y` rounds down exactly when
`y ≤ s * s + s` for `s = ⌊√y⌋`. -/
def sqrtFloat64 (x : Nat) : Nat × Nat :=
  let f := 53 - bitLength 64 (isqrt x)
  let y := x * 4 ^ f
  let s := isqrt y
  (if y - s * s ≤ s then s else s + 1, f)

/-- The conversion `int(math.Ceil(v))` for the float64 `v = q / 2 ^ f`. -/
def ceilToInt (v : Nat × Nat) : Nat := (v.1 + 2 ^ v.2 - 1) / 2 ^ v.2

/-- The Go expression `int(math.Ceil(math.Sqrt(float64(n))))`. -/
def ceilSqrtFloat64 (n : Nat) : Nat := ceilToInt (sqrtFloat64 (float64OfInt n))

/-! ## Chunking -/

/-- The value of `numChunks` in `splitIntoChunks` once the floor of 4 has
been applied. -/
def numChunksOf (n : Nat) : Nat :=
  let numChunks := ceilSqrtFloat64 n
  if numChunks < 4 then 4 else numChunks

/-- The value of `size` in iteration `i` of the loop of `splitIntoChunks`. -/
def chunkSize (base extra i : Nat) : Nat := if i < extra then base + 1 else base

/-- One iteration of the loop of `splitIntoChunks`; the state is the pair
`(chunks, index)`. -/
def splitStep (numbers : List Int) (base extra : Nat)
    (st : List (List Int) × Nat) (i : Nat) : Run (List (List Int) × Nat) :=
  let size := chunkSize base extra i
  if size = 0 then .ok st
  else do
    let chunk ← slice numbers st.2 (st.2 + size)
    pure (st.1 ++ [chunk], st.2 + size)

/-- The loop `for i := 0; i < numChunks; i++` of `splitIntoChunks`, started
with no chunks at `index = 0`. -/
def splitLoop (numbers : List Int) (numChunks : Nat) : Run (List (List Int) × Nat) :=
  (List.range numChunks).foldlM
    (splitStep numbers (numbers.length / numChunks) (numbers.length % numChunks)) ([], 0)

/-- The function `splitIntoChunks`. -/
def splitIntoChunks (numbers : List Int) : Run (List (List Int)) := do
  let st ← splitLoop numbers (numChunksOf numbers.length)
  pure st.1

/-! ## Sorting the chunks -/

/-- The standard library routine `sort.Ints`: ascending order. -/
def sortInts (l : List Int) : List Int := l.insertionSort (· ≤ ·)

/-- The function `sortChunksConcurrently`: one goroutine per chunk sorts that
chunk, and `wg.Wait()` returns once all of them are done; the value returned
is every chunk sorted, at its position. -/
def sortChunksConcurrently (chunks : List (List Int)) : List (List Int) :=
  chunks.map sortInts

/-! ## Merging -/

/-- The local variables `minIdx`, `minVal`, `first` of one pass over the
cursors. -/
structure Scan where
  minIdx : Int
  minVal : Int
  first : Bool
  deriving DecidableEq, Repr

/-- Iteration `i` of the inner loop `for i := range chunks`. -/
def scanStep (chunks : List (List Int)) (indices : List Nat) (s : Scan) (i : Nat) :
    Run Scan := do
  let cursor ← index indices i
  let chunk ← index chunks i
  if cursor ≥ chunk.length then pure s
  else do
    let val ← index chunk cursor
    if s.first || val < s.minVal then pure { minIdx := i, minVal := val, first := false }
    else pure s

/-- The inner loop `for i := range chunks`, started with `minIdx = -1`,
`minVal = 0`, `first = true`. -/
def scan (chunks : List (List Int)) (indices : List Nat) : Run Scan :=
  (List.range chunks.length).foldlM (scanStep chunks indices)
    { minIdx := -1, minVal := 0, first := true }

/-- The state of the outer loop: the cursors and the output built so far. -/
structure MergeState where
  indices : List Nat
  result : List Int
  deriving DecidableEq, Repr

/-- One iteration of the outer `for { ... }` loop: `none` when the loop
breaks (`minIdx == -1`), otherwise the state after `result = append(result,
minVal)` and `indices[minIdx]++`. -/
def mergeStep (chunks : List (List Int)) (st : MergeState) : Run (Option MergeState) := do
  let s ← scan chunks st.indices
  if s.minIdx = -1 then pure none
  else do
    let cursor ← index st.indices s.minIdx.toNat
    pure (some { indices := st.indices.set s.minIdx.toNat (cursor + 1),
                 result := st.result ++ [s.minVal] })

/-- The outer `for { ... }` loop, unrolled at most `fuel` times. -/
def mergeLoop (chunks : List (List Int)) : Nat → MergeState → Run (List Int)
  | 0, _ => .error .outOfFuel
  | fuel + 1, st => do
    match ← mergeStep chunks st with
    | none => pure st.result
    | some st' => mergeLoop chunks fuel st'

/-- The value of `totalLength` in `mergeSortedChunks`. -/
def totalLength (chunks : List (List Int)) : Nat :=
  chunks.foldl (fun acc chunk => acc + chunk.length) 0

/-- The function `mergeSortedChunks`, with the outer loop unrolled `fuel`
times. -/
def mergeSortedChunksFuel (fuel : Nat) (chunks : List (List Int)) : Run (List Int) :=
  if chunks.length = 0 then .ok []
  else if chunks.length = 1 then index chunks 0
  else mergeLoop chunks fuel
    { indices := List.replicate chunks.length 0, result := [] }

/-- The function `mergeSortedChunks`.  The loop appends one element per
iteration and then breaks, so `totalLength + 1` unrollings are enough
(`mergeLoop_fuel_irrelevant`). -/
def mergeSortedChunks (chunks : List (List Int)) : Run (List Int) :=
  mergeSortedChunksFuel (totalLength chunks + 1) chunks

/-! ## The pipeline -/

/-- The function `process`. -/
def process (numbers : List Int) : Run (List Int) := do
  let chunks ← splitIntoChunks numbers
  let sortedChunks := sortChunksConcurrently chunks
  mergeSortedChunks sortedChunks

/-! ## Auxiliary definitions used in the statements and proofs -/

/-- Equality of runs is decidable, so that a run on a concrete input can be
compared with its expected result. -/
instance instDecidableEqRun {α : Type} [DecidableEq α] : DecidableEq (Run α)
  | .ok a, .ok b =>
    if h : a = b then isTrue (by rw [h]) else isFalse (fun h2 => h (Except.ok.inj h2))
  | .error a, .error b =>
    if h : a = b then isTrue (by rw [h]) else isFalse (fun h2 => h (Except.error.inj h2))
  | .ok _, .error _ => isFalse (fun h => by cases h)
  | .error _, .ok _ => isFalse (fun h => by cases h)

/-- The value of `index` at the start of iteration `m` of the loop of
`splitIntoChunks`: the sum of the sizes of the chunks `0, ..., m-1`. -/
def chunkOffset (base extra m : Nat) : Nat := m * base + min m extra

/-- The chunks appended by the first `m` iterations of the loop of
`splitIntoChunks`: the slices of non-zero size, in order. -/
def computedChunks (numbers : List Int) (base extra m : Nat) : List (List Int) :=
  ((List.range m).filter (fun i => chunkSize base extra i ≠ 0)).map
    (fun i => (numbers.drop (chunkOffset base extra i)).take (chunkSize base extra i))

/-- The slices computed by the first `m` iterations of the loop of
`splitIntoChunks`, those of size zero included. -/
def allChunks (numbers : List Int) (base extra m : Nat) : List (List Int) :=
  (List.range m).map
    (fun i => (numbers.drop (chunkOffset base extra i)).take (chunkSize base extra i))

/-- What is left to merge: for each chunk, its elements from the cursor on. -/
def remaining (chunks : List (List Int)) (indices : List Nat) : List (List Int) :=
  List.zipWith (fun chunk cursor => chunk.drop cursor) chunks indices

/-- The element under the cursor of chunk `i`, when the cursor has not reached
the end of the chunk. -/
def cursorVal (chunks : List (List Int)) (indices : List Nat) (i : Nat) : Option Int :=
  match chunks[i]?, indices[i]? with
  | some chunk, some cursor => chunk[cursor]?
  | _, _ => none

/-- The invariant of the inner loop of `mergeSortedChunks` after the chunks
`0, ..., m-1` have been visited: either every cursor visited is at the end of
its chunk and the scan variables are still the initial ones, or `minIdx` is
the first visited chunk whose cursor element is smallest and `minVal` is that
element. -/
def ScanInv (chunks : List (List Int)) (indices : List Nat) (m : Nat) (s : Scan) : Prop :=
  (s.first = true ∧ s.minIdx = -1 ∧ ∀ i, i < m → cursorVal chunks indices i = none) ∨
  (s.first = false ∧ ∃ j, j < m ∧ s.minIdx = (j : Int) ∧
    cursorVal chunks indices j = some s.minVal ∧
    ∀ i v, i < m → cursorVal chunks indices i = some v →
      s.minVal ≤ v ∧ (i < j → s.minVal < v))

/-! ## The iterations of the merge loop -/

/-- The states of the outer `for { ... }` loop at the start of its successive
iterations, the last (breaking) iteration included, with the loop unrolled at
most `fuel` times.  The loop makes one select-and-append step between two
consecutive states of the list. -/
def mergeTrace (chunks : List (List Int)) : Nat → MergeState → Run (List MergeState)
  | 0, _ => .error .outOfFuel
  | fuel + 1, st => do
    match ← mergeStep chunks st with
    | none => pure [st]
    | some st' => do
      let rest ← mergeTrace chunks fuel st'
      pure (st :: rest)

/-- The state in which `mergeSortedChunks` enters its loop: every cursor at 0
and an empty output. -/
def mergeStart (chunks : List (List Int)) : MergeState :=
  { indices := List.replicate chunks.length 0, result := [] }

/-- Every chunk has a cursor and no cursor is beyond the end of its chunk. -/
def CursorsInBounds (chunks : List (List Int)) (indices : List Nat) : Prop :=
  indices.length = chunks.length ∧
    ∀ (i cursor : Nat) (chunk : List Int),
      indices[i]? = some cursor → chunks[i]? = some chunk → cursor ≤ chunk.length

/-- One select-and-append step from `st` to `st'`: the cursor advanced is that
of the chunk `j` whose cursor element `v` is least among the chunks not yet
exhausted, with the lowest index among those of that value, and `v` is
appended to the output. -/
def SelectsLeast (chunks : List (List Int)) (st st' : MergeState) : Prop :=
  ∃ (j cursor : Nat) (v : Int), st.indices[j]? = some cursor ∧
    cursorVal chunks st.indices j = some v ∧
    (∀ (i : Nat) (w : Int), cursorVal chunks st.indices i = some w →
      v ≤ w ∧ (i < j → v < w)) ∧
    st'.indices = st.indices.set j (cursor + 1) ∧ st'.result = st.result ++ [v]

/-! ## The merge with the other tie-break -/

/-- Iteration `i` of the inner loop with the comparison `val <= minVal` in
place of `val < minVal`: among equal cursor elements the chunk of larger index
is preferred. -/
def scanStepLe (chunks : List (List Int)) (indices : List Nat) (s : Scan) (i : Nat) :
    Run Scan := do
  let cursor ← index indices i
  let chunk ← index chunks i
  if cursor ≥ chunk.length then pure s
  else do
    let val ← index chunk cursor
    if s.first || val ≤ s.minVal then pure { minIdx := i, minVal := val, first := false }
    else pure s

/-- The inner loop with the comparison `val <= minVal`. -/
def scanLe (chunks : List (List Int)) (indices : List Nat) : Run Scan :=
  (List.range chunks.length).foldlM (scanStepLe chunks indices)
    { minIdx := -1, minVal := 0, first := true }

/-- One iteration of the outer loop with the comparison `val <= minVal`. -/
def mergeStepLe (chunks : List (List Int)) (st : MergeState) : Run (Option MergeState) := do
  let s ← scanLe chunks st.indices
  if s.minIdx = -1 then pure none
  else do
    let cursor ← index st.indices s.minIdx.toNat
    pure (some { indices := st.indices.set s.minIdx.toNat (cursor + 1),
                 result := st.result ++ [s.minVal] })

/-- The outer loop with the comparison `val <= minVal`, unrolled at most
`fuel` times. -/
def mergeLoopLe (chunks : List (List Int)) : Nat → MergeState → Run (List Int)
  | 0, _ => .error .outOfFuel
  | fuel + 1, st => do
    match ← mergeStepLe chunks st with
    | none => pure st.result
    | some st' => mergeLoopLe chunks fuel st'

/-- The merge that differs from `mergeSortedChunks` only in the comparison
`val <= minVal` of its inner loop. -/
def mergeSortedChunksLe (chunks : List (List Int)) : Run (List Int) :=
  if chunks.length = 0 then .ok []
  else if chunks.length = 1 then index chunks 0
  else mergeLoopLe chunks (totalLength chunks + 1)
    { indices := List.replicate chunks.length 0, result := [] }

/-- The invariant of the inner loop with the comparison `val <= minVal`:
`minIdx` is the last visited chunk whose cursor element is smallest. -/
def ScanInvLe (chunks : List (List Int)) (indices : List Nat) (m : Nat) (s : Scan) : Prop :=
  (s.first = true ∧ s.minIdx = -1 ∧ ∀ i, i < m → cursorVal chunks indices i = none) ∨
  (s.first = false ∧ ∃ j, j < m ∧ s.minIdx = (j : Int) ∧
    cursorVal chunks indices j = some s.minVal ∧
    ∀ i v, i < m → cursorVal chunks indices i = some v →
      s.minVal ≤ v ∧ (j < i → s.minVal < v))

/-! ## The goroutines of `sortChunksConcurrently` -/

/-- Where the goroutine started for chunk `i` is: the `go` statement for it
has not been executed yet; it has been started and has not yet called
`sort.Ints`; it is inside `sort.Ints`; `sort.Ints` has returned and the
deferred `wg.Done()` has not run yet; `wg.Done()` has run. -/
inductive Phase where
  | notStarted
  | ready
  | sorting
  | sorted
  | done
  deriving DecidableEq, Repr

/-- Where the calling goroutine is: about to execute iteration `i` of
`for i := range chunks` (for `i = len(chunks)` it is at `wg.Wait()`), or
returned from `sortChunksConcurrently`. -/
inductive MainPc where
  | loop (i : Nat)
  | returned
  deriving DecidableEq, Repr

/-- A state of a run of `sortChunksConcurrently`: the position of the caller,
the counter of the wait group, the phase of every goroutine and the contents
of the chunks. -/
structure Conc where
  main : MainPc
  counter : Int
  phases : List Phase
  chunks : List (List Int)
  deriving DecidableEq, Repr

/-- The atomic steps of a run: the caller executes the next `go` statement;
goroutine `i` calls `sort.Ints(chunks[i])`; `sort.Ints` returns in goroutine
`i`; goroutine `i` runs its deferred `wg.Done()`; `wg.Wait()` returns and the
caller returns `chunks`. -/
inductive Event where
  | spawn
  | begin (i : Nat)
  | finish (i : Nat)
  | done (i : Nat)
  | ret
  deriving DecidableEq, Repr

/-- The state after `wg.Add(len(chunks))`, before the loop. -/
def Conc.init (chunks : List (List Int)) : Conc :=
  { main := .loop 0, counter := chunks.length,
    phases := List.replicate chunks.length .notStarted, chunks := chunks }

/-- The effect of one step, `none` when the step cannot be taken in the
state.  `wg.Wait()` can return only when the counter is zero; the writes of
`sort.Ints` to the chunk take effect when it returns. -/
def Conc.step (s : Conc) : Event → Option Conc
  | .spawn =>
    match s.main with
    | .loop i =>
      if i < s.chunks.length then
        some { s with main := .loop (i + 1), phases := s.phases.set i .ready }
      else none
    | .returned => none
  | .begin i =>
    if s.phases[i]? = some .ready then some { s with phases := s.phases.set i .sorting }
    else none
  | .finish i =>
    if s.phases[i]? = some .sorting then
      match s.chunks[i]? with
      | some chunk =>
        some { s with phases := s.phases.set i .sorted,
                      chunks := s.chunks.set i (sortInts chunk) }
      | none => none
    else none
  | .done i =>
    if s.phases[i]? = some .sorted then
      some { s with phases := s.phases.set i .done, counter := s.counter - 1 }
    else none
  | .ret =>
    if s.main = .loop s.chunks.length ∧ s.counter = 0 then some { s with main := .returned }
    else none

/-- The state reached by taking the steps of a schedule in order, `none` when
one of them cannot be taken. -/
def Conc.run (s : Conc) : List Event → Option Conc
  | [] => some s
  | e :: es =>
    match s.step e with
    | some s' => s'.run es
    | none => none

/-- The number of goroutines that have not run `wg.Done()` yet. -/
def pendingCount (phases : List Phase) : Nat :=
  phases.countP (fun p => decide (p ≠ .done))

/-- The contents of a chunk given the phase of its goroutine: sorted once
`sort.Ints` has returned, the original contents before. -/
def chunkAt (p : Phase) (original : List Int) : List Int :=
  match p with
  | .sorted => sortInts original
  | .done => sortInts original
  | _ => original

/-- The number of steps goroutine `i` can still take, the `go` statement that
starts it included. -/
def stepsLeft : Phase → Nat
  | .notStarted => 4
  | .ready => 3
  | .sorting => 2
  | .sorted => 1
  | .done => 0

/-- The number of steps a run can still take from a state. -/
def Conc.stepsLeft (s : Conc) : Nat :=
  (s.phases.map GoSort.stepsLeft).sum + (if s.main = .returned then 0 else 1)

/-- The part of the invariant that depends on where the caller is: during
the loop, the goroutines not yet reached are not started and the others are;
after the return, no goroutine is pending. -/
def MainInv (n : Nat) (main : MainPc) (phases : List Phase) : Prop :=
  match main with
  | .loop i => i ≤ n ∧ (∀ k, i ≤ k → k < n → phases[k]? = some .notStarted) ∧
      (∀ k, k < i → phases[k]? ≠ some .notStarted)
  | .returned => pendingCount phases = 0

/-- The invariant of the runs of `sortChunksConcurrently` on `original`: the
counter of the wait group is the number of goroutines that have not run
`wg.Done()`; a chunk holds its sorted contents once `sort.Ints` has returned
on it and its original contents before; and `MainInv` holds. -/
def ConcInv (original : List (List Int)) (s : Conc) : Prop :=
  s.phases.length = original.length ∧ s.chunks.length = original.length ∧
  s.counter = (pendingCount s.phases : Int) ∧
  (∀ (k : Nat) (p : Phase) (c : List Int), s.phases[k]? = some p → original[k]? = some c →
    s.chunks[k]? = some (chunkAt p c)) ∧
  MainInv original.length s.main s.phases

/-! ## Reading and writing the one-integer-per-line format

Text is a list of Unicode characters (the files are taken to be valid UTF-8);
an `int` has 64 bits.  `bufio.Scanner`, `strings.TrimSpace`,
`fmt.Sscanf(text, "%d", &n)` and `fmt.Fprintln(w, n)` are the Go standard
library; they are modelled by what they do on such text. -/

/-- What `os.Open` finds under a file name: nothing that can be opened, or a
file with the given contents. -/
inductive File where
  | missing
  | content (text : List Char)
  deriving DecidableEq, Repr

/-- The errors of `readNumbersFromFile`: the error of `os.Open`; the error
`invalid integer at line %d`; and `bufio.ErrTooLong`, the error of the scanner
on a line that does not fit its buffer. -/
inductive ReadErr where
  | cannotOpen
  | invalidInteger (line : Nat)
  | tooLong
  deriving DecidableEq, Repr

/-- The split function `bufio.ScanLines` without its removal of a carriage
return: the text is cut at every `'\n'`; what follows the last `'\n'` is a
line only if it is not empty.  `current` holds the characters of the line
being read, last one first. -/
def splitLines : List Char → List Char → List (List Char)
  | [], current => if current = [] then [] else [current.reverse]
  | c :: rest, current =>
    if c = '\n' then current.reverse :: splitLines rest []
    else splitLines rest (c :: current)

/-- The function `dropCR` of `bufio`: a line loses one final carriage
return. -/
def dropCR (line : List Char) : List Char :=
  if line.getLast? = some '\r' then line.dropLast else line

/-- The number of bytes of a line in UTF-8. -/
def utf8Len (line : List Char) : Nat := (line.map Char.utf8Size).sum

/-- The largest number of bytes of a line, carriage return included, that
`bufio.Scanner` accepts with its default buffer of `bufio.MaxScanTokenSize =
64 * 1024` bytes: the line and its `'\n'` must fit the buffer. -/
def maxLineBytes : Nat := 64 * 1024 - 1

/-- The predicate `unicode.IsSpace`. -/
def isSpace (c : Char) : Bool :=
  let n := c.toNat
  (9 ≤ n ∧ n ≤ 13) ∨ n = 0x20 ∨ n = 0x85 ∨ n = 0xA0 ∨ n = 0x1680 ∨
    (0x2000 ≤ n ∧ n ≤ 0x200A) ∨ n = 0x2028 ∨ n = 0x2029 ∨ n = 0x202F ∨ n = 0x205F ∨
    n = 0x3000

/-- The function `strings.TrimSpace`. -/
def trimSpace (text : List Char) : List Char :=
  ((text.dropWhile isSpace).reverse.dropWhile isSpace).reverse

/-- The decimal digits `0123456789` that `%d` accepts. -/
def isDigit (c : Char) : Bool := decide ('0'.toNat ≤ c.toNat ∧ c.toNat ≤ '9'.toNat)

/-- The value of a decimal digit. -/
def digitVal (c : Char) : Nat := c.toNat - '0'.toNat

/-- The value of a string of decimal digits. -/
def digitsVal (digits : List Char) : Nat :=
  digits.foldl (fun acc c => 10 * acc + digitVal c) 0

/-- The call `fmt.Sscanf(text, "%d", &n)` on a text that does not start with a
space: `none` when it returns an error, otherwise the value stored in `n`.
The scan accepts one optional sign, then at least one decimal digit and all
the digits that follow; it stops at the first character that is not a digit
and does not look at the rest of the text.  The token must be in the range of
a 64-bit `int`. -/
def sscanInt (text : List Char) : Option Int :=
  let signed := text.head? = some '-' ∨ text.head? = some '+'
  let digits := (if signed then text.tail else text).takeWhile isDigit
  if digits = [] then none
  else
    let value : Int := if text.head? = some '-' then -(digitsVal digits : Int)
      else (digitsVal digits : Int)
    if -(2 : Int) ^ 63 ≤ value ∧ value < (2 : Int) ^ 63 then some value else none

/-- One iteration of the loop `for scanner.Scan() { ... }` of
`readNumbersFromFile` on the next line of the file; the state is the pair
`(nums, line)`. -/
def readLine (st : List Int × Nat) (raw : List Char) : Except ReadErr (List Int × Nat) :=
  if utf8Len raw > maxLineBytes then .error .tooLong
  else
    let line := st.2 + 1
    let text := trimSpace (dropCR raw)
    if text = [] then .ok (st.1, line)
    else
      match sscanInt text with
      | none => .error (.invalidInteger line)
      | some n => .ok (st.1 ++ [n], line)

/-- The function `readNumbersFromFile`. -/
def readNumbersFromFile (file : File) : Except ReadErr (List Int) :=
  match file with
  | .missing => .error .cannotOpen
  | .content text => do
    let st ← (splitLines text []).foldlM readLine ([], 0)
    pure st.1

/-- The decimal digit of value `d`. -/
def digitChar (d : Nat) : Char := Char.ofNat ('0'.toNat + d)

/-- The decimal digits of `n`, most significant first, for `n < 10 ^ fuel`. -/
def natDigits : Nat → Nat → List Char
  | 0, _ => []
  | fuel + 1, n =>
    if n < 10 then [digitChar n] else natDigits fuel (n / 10) ++ [digitChar (n % 10)]

/-- The text `fmt.Fprintln` prints for an `int`, without the newline: its
decimal digits, after a minus sign when it is negative. -/
def formatInt (x : Int) : List Char :=
  if x < 0 then '-' :: natDigits 20 x.natAbs else natDigits 20 x.toNat

/-- The text `writeNumbersToFile` writes: one integer per line. -/
def fileText (numbers : List Int) : List Char :=
  (numbers.map (fun n => formatInt n ++ ['\n'])).flatten

/-- The function `writeNumbersToFile`; `writable` tells whether `os.Create`
and the final `Flush` succeed.  The result is the contents of the file
written. -/
def writeNumbersToFile (writable : Bool) (numbers : List Int) : Option (List Char) :=
  if writable then some (fileText numbers) else none

/-! ## The three modes -/

/-- What the program prints: a line of text, a slice of integers, or a line
`Chunk i: c` of `printChunks`. -/
inductive Printed where
  | line (text : String)
  | numbers (l : List Int)
  | chunk (i : Nat) (c : List Int)
  deriving DecidableEq, Repr

/-- The errors the three modes return. -/
inductive RunErr where
  | message (text : String)
  | read (e : ReadErr)
  | write (name : String)
  | invalidDirectory
  | mkdir
  | readDir
  | fault (f : Fault)
  deriving DecidableEq, Repr

/-- What a run of one mode leaves behind: what it printed, the files it wrote
with their contents, and the error it returned, if any. -/
structure Outcome where
  printed : List Printed
  written : List (String × List Char)
  error : Option RunErr
  deriving DecidableEq, Repr

/-- The function `printChunks`. -/
def printChunks (chunks : List (List Int)) : List Printed :=
  (List.range chunks.length).zipWith (fun i c => Printed.chunk i c) chunks

/-- The function `processAndPrint`: what it prints, and the fault that stops
it, if any. -/
def processAndPrint (numbers : List Int) : List Printed × Option Fault :=
  match splitIntoChunks numbers with
  | .error f => ([], some f)
  | .ok chunks =>
    let before := [Printed.line "\nChunks before sorting:"] ++ printChunks chunks
    let sortedChunks := sortChunksConcurrently chunks
    let after := before ++ [Printed.line "\nChunks after sorting:"] ++ printChunks sortedChunks
    match mergeSortedChunks sortedChunks with
    | .error f => (after, some f)
    | .ok result => (after ++ [Printed.line "\nFinal sorted result:", Printed.numbers result], none)

/-- The function `generateRandomNumbers`; `draws i` stands for the `i`-th
value of the pseudo-random generator, of which `rand.Intn(1000)` returns a
value in `[0, 999]`. -/
def generateRandomNumbers (n : Nat) (draws : Nat → Nat) : List Int :=
  (List.range n).map (fun i => ((draws i % 1000 : Nat) : Int))

/-- The function `runRandom`. -/
def runRandom (n : Int) (draws : Nat → Nat) : Outcome :=
  if n < 10 then { printed := [], written := [], error := some (.message "N must be >= 10") }
  else
    let numbers := generateRandomNumbers n.toNat draws
    let run := processAndPrint numbers
    { printed := [Printed.line "Original numbers:", Printed.numbers numbers] ++ run.1,
      written := [], error := run.2.map RunErr.fault }

/-- The function `runInputFile`, on what `os.Open` finds under the file
name. -/
def runInputFile (file : File) : Outcome :=
  match readNumbersFromFile file with
  | .error e => { printed := [], written := [], error := some (.read e) }
  | .ok numbers =>
    if numbers.length < 10 then
      { printed := [], written := [],
        error := some (.message "input file must contain at least 10 valid integers") }
    else
      let run := processAndPrint numbers
      { printed := [Printed.line "Original numbers:", Printed.numbers numbers] ++ run.1,
        written := [], error := run.2.map RunErr.fault }

/-- An entry of the directory: its name, whether it is a directory, and what
`os.Open` finds under it. -/
structure DirEntry where
  name : String
  isDir : Bool
  file : File
  deriving DecidableEq, Repr

/-- What the operating system answers about the directory given to
`runDirectory`: whether `os.Stat` finds a directory, whether `os.MkdirAll`
creates the output directory, what `os.ReadDir` lists (`none` when it fails),
and which output files can be written. -/
structure Dir where
  valid : Bool
  canMkdir : Bool
  listing : Option (List DirEntry)
  writable : String → Bool

/-- The test `strings.HasSuffix(name, ".txt")`. -/
def hasTxtSuffix (name : String) : Bool := (".txt".toList).isSuffixOf name.toList

/-- The loop `for _, e := range entries` of `runDirectory`: the files written,
those in `written` first, and the error that stops the loop, if any. -/
def dirLoop (writable : String → Bool) :
    List DirEntry → List (String × List Char) → List (String × List Char) × Option RunErr
  | [], written => (written, none)
  | e :: rest, written =>
    if e.isDir || !hasTxtSuffix e.name then dirLoop writable rest written
    else
      match readNumbersFromFile e.file with
      | .error _ => dirLoop writable rest written
      | .ok numbers =>
        if numbers.length < 10 then dirLoop writable rest written
        else
          match process numbers with
          | .error f => (written, some (.fault f))
          | .ok sorted =>
            match writeNumbersToFile (writable e.name) sorted with
            | none => (written, some (.write e.name))
            | some text => dirLoop writable rest (written ++ [(e.name, text)])

/-- The function `runDirectory`. -/
def runDirectory (dirName : String) (dir : Dir) : Outcome :=
  if !dir.valid then { printed := [], written := [], error := some .invalidDirectory }
  else if !dir.canMkdir then { printed := [], written := [], error := some .mkdir }
  else
    match dir.listing with
    | none => { printed := [], written := [], error := some .readDir }
    | some entries =>
      let run := dirLoop dir.writable entries []
      match run.2 with
      | some e => { printed := [], written := run.1, error := some e }
      | none =>
        { printed := [Printed.line ("Sorted files saved in directory: " ++ dirName ++
            "_sorted_Nandana_Subhash_241ADB029")],
          written := run.1, error := none }

/-- The output file `runDirectory` writes for an entry, when it writes one: a
regular file with the suffix `.txt` that `readNumbersFromFile` reads without
error into at least 10 integers. -/
def outputOf (e : DirEntry) : Option (String × List Char) :=
  if e.isDir || !hasTxtSuffix e.name then none
  else
    match readNumbersFromFile e.file with
    | .error _ => none
    | .ok numbers =>
      if numbers.length < 10 then none
      else
        match process numbers with
        | .error _ => none
        | .ok sorted => some (e.name, fileText sorted)

/-- Equality of results with an error is decidable. -/
instance instDecidableEqExcept {ε α : Type} [DecidableEq ε] [DecidableEq α] :
    DecidableEq (Except ε α)
  | .ok a, .ok b =>
    if h : a = b then isTrue (by rw [h]) else isFalse (fun h2 => h (Except.ok.inj h2))
  | .error a, .error b =>
    if h : a = b then isTrue (by rw [h]) else isFalse (fun h2 => h (Except.error.inj h2))
  | .ok _, .error _ => isFalse (fun h => by cases h)
  | .error _, .ok _ => isFalse (fun h => by cases h)

/-! ## Lemmas: the loop of `splitIntoChunks` -/

theorem chunkOffset_succ (base extra m : Nat) :
    chunkOffset base extra (m + 1) = chunkOffset base extra m + chunkSize base extra m := by
  simp only [chunkOffset, chunkSize, Nat.succ_mul]
  split_ifs <;> omega

theorem chunkOffset_mono (base extra : Nat) {a b : Nat} (h : a ≤ b) :
    chunkOffset base extra a ≤ chunkOffset base extra b := by
  induction h with
  | refl => exact Nat.le_refl _
  | step _ ih => rw [chunkOffset_succ]; omega

/-- The sizes of all `k` computed chunks add up to `n`. -/
theorem chunkOffset_total (n k : Nat) (hk : 0 < k) :
    chunkOffset (n / k) (n % k) k = n := by
  have h1 : n % k < k := Nat.mod_lt _ hk
  have h2 := Nat.div_add_mod n k
  simp only [chunkOffset]
  rw [Nat.min_eq_right (Nat.le_of_lt h1)]
  exact h2

theorem computedChunks_succ (numbers : List Int) (base extra m : Nat) :
    computedChunks numbers base extra (m + 1) =
      computedChunks numbers base extra m ++
        (if chunkSize base extra m = 0 then []
         else [(numbers.drop (chunkOffset base extra m)).take (chunkSize base extra m)]) := by
  simp only [computedChunks, List.range_succ, List.filter_append, List.map_append]
  by_cases h : chunkSize base extra m = 0 <;> simp [h]

theorem slice_ok (numbers : List Int) (lo size : Nat) (h : lo + size ≤ numbers.length) :
    slice numbers lo (lo + size) = .ok ((numbers.drop lo).take size) := by
  simp [slice, h]

/-- Invariant of the loop of `splitIntoChunks`: as long as `index` stays within
the sequence, `m` iterations run without a fault and leave the non-empty slices
computed so far and the offset of the next one. -/
theorem splitLoop_upto (numbers : List Int) (base extra m : Nat)
    (h : chunkOffset base extra m ≤ numbers.length) :
    (List.range m).foldlM (splitStep numbers base extra) ([], 0) =
      .ok (computedChunks numbers base extra m, chunkOffset base extra m) := by
  induction m with
  | zero => simp [computedChunks, chunkOffset]; rfl
  | succ m ih =>
    have hstep := chunkOffset_succ base extra m
    have hm : chunkOffset base extra m ≤ numbers.length := by omega
    rw [List.range_succ, List.foldlM_append, ih hm, computedChunks_succ]
    by_cases hz : chunkSize base extra m = 0
    · simp [splitStep, hz, hstep, bind, Except.bind, pure, Except.pure]
    · have hs := slice_ok numbers (chunkOffset base extra m) (chunkSize base extra m) (by omega)
      simp [splitStep, hz, hstep, hs, bind, Except.bind, pure, Except.pure]

/-- The chunks appended by the first `m` iterations concatenate to the first
`index` elements of the sequence. -/
theorem computedChunks_flatten (numbers : List Int) (base extra m : Nat) :
    (computedChunks numbers base extra m).flatten = numbers.take (chunkOffset base extra m) := by
  induction m with
  | zero => simp [computedChunks, chunkOffset]
  | succ m ih =>
    rw [computedChunks_succ, List.flatten_append, ih, chunkOffset_succ, List.take_add]
    by_cases hz : chunkSize base extra m = 0 <;> simp [hz]

theorem numChunksOf_ge (n : Nat) : 4 ≤ numChunksOf n := by
  simp only [numChunksOf]
  split_ifs <;> omega

/-- The function `splitIntoChunks` returns on every sequence, with the
non-empty slices computed by its `numChunks` iterations. -/
theorem splitIntoChunks_eq (numbers : List Int) :
    splitIntoChunks numbers = .ok (computedChunks numbers
      (numbers.length / numChunksOf numbers.length)
      (numbers.length % numChunksOf numbers.length) (numChunksOf numbers.length)) := by
  have hk : 0 < numChunksOf numbers.length := by have := numChunksOf_ge numbers.length; omega
  have ht := chunkOffset_total numbers.length _ hk
  simp only [splitIntoChunks, splitLoop]
  rw [splitLoop_upto numbers _ _ _ (by omega)]
  rfl

/-! ## Lemmas: the float64 square root is exact below `2 ^ 52` -/

theorem bitLength_le (fuel : Nat) : ∀ (x b : Nat), x < 2 ^ b → bitLength fuel x ≤ b := by
  induction fuel with
  | zero => intro x b _; simp [bitLength]
  | succ fuel ih =>
    intro x b hx
    simp only [bitLength]
    split_ifs with h0
    · exact Nat.zero_le _
    · cases b with
      | zero => simp at hx; omega
      | succ b =>
        have : x / 2 < 2 ^ b := by
          rw [Nat.pow_succ] at hx
          omega
        have := ih (x / 2) b this
        omega

/-- The digit-by-digit square root keeps `r * r ≤ n < (r + 2 ^ k) ^ 2`. -/
theorem isqrtBits_spec (n : Nat) : ∀ (k r : Nat), r * r ≤ n → n < (r + 2 ^ k) * (r + 2 ^ k) →
    isqrtBits n k r * isqrtBits n k r ≤ n ∧
      n < (isqrtBits n k r + 1) * (isqrtBits n k r + 1) := by
  intro k
  induction k with
  | zero => intro r h1 h2; simpa [isqrtBits] using ⟨h1, h2⟩
  | succ k ih =>
    intro r h1 h2
    simp only [isqrtBits]
    split_ifs with hc
    · apply ih _ hc
      have : r + 2 ^ k + 2 ^ k = r + 2 ^ (k + 1) := by rw [Nat.pow_succ]; omega
      rw [this]; exact h2
    · exact ih _ h1 (by omega)

theorem isqrt_spec (n : Nat) (hn : n < 2 ^ 256) :
    isqrt n * isqrt n ≤ n ∧ n < (isqrt n + 1) * (isqrt n + 1) := by
  apply isqrtBits_spec n 128 0 (Nat.zero_le _)
  calc n < 2 ^ 256 := hn
    _ = (0 + 2 ^ 128) * (0 + 2 ^ 128) := by norm_num

theorem isqrt_eq_sqrt (n : Nat) (hn : n < 2 ^ 256) : isqrt n = Nat.sqrt n :=
  Nat.eq_sqrt.mpr (isqrt_spec n hn)

theorem float64OfInt_exact (n : Nat) (hn : n < 2 ^ 53) : float64OfInt n = n := by
  have := bitLength_le 64 n 53 hn
  simp [float64OfInt, this]

/-- Rounding the square root of `n * F * F` to the nearest integer and taking
the ceiling of its quotient by `F` gives the least `c` with `c * c ≥ n`, as
soon as `F` exceeds `c`: the rounding error is below the distance between
`√n` and the integer below it. -/
theorem ceil_rounded_sqrt (n c F s : Nat) (hcF : c < F) (hc : n ≤ c * c)
    (hmin : ∀ d, n ≤ d * d → c ≤ d) (hs1 : s * s ≤ n * (F * F))
    (hs2 : n * (F * F) < (s + 1) * (s + 1)) :
    ((if n * (F * F) - s * s ≤ s then s else s + 1) + F - 1) / F = c := by
  have hF : 0 < F := by omega
  rcases Nat.eq_or_lt_of_le hc with heq | hlt
  · -- a perfect square: the root is exact
    have hs : s = c * F := by
      have e : n * (F * F) = (c * F) * (c * F) := by rw [heq]; ring
      rw [e] at hs1 hs2
      have a1 : s ≤ c * F := Nat.mul_self_le_mul_self_iff.mp hs1
      have a2 : c * F < s + 1 := Nat.mul_self_lt_mul_self_iff.mp hs2
      omega
    have e : n * (F * F) - s * s = 0 := by
      rw [hs, heq]
      have : c * c * (F * F) = c * F * (c * F) := by ring
      omega
    rw [e, if_pos (Nat.zero_le _), hs]
    apply Nat.div_eq_of_lt_le
    · omega
    · rw [Nat.succ_mul]; omega
  · -- not a perfect square: the rounded root lies strictly between c - 1 and c
    have hc1 : 1 ≤ c := by
      rcases Nat.eq_zero_or_pos c with h0 | h0
      · rw [h0] at hlt; omega
      · exact h0
    obtain ⟨p, rfl⟩ : ∃ p, c = p + 1 := ⟨c - 1, by omega⟩
    have hp : p * p < n := by
      by_contra hne
      have := hmin p (by omega)
      omega
    have hsc : s + 1 ≤ (p + 1) * F := by
      by_contra hne
      have h1 : (p + 1) * F ≤ s := by omega
      have h2 : n * (F * F) < (p + 1) * (p + 1) * (F * F) :=
        Nat.mul_lt_mul_of_pos_right hlt (Nat.mul_pos hF hF)
      have h3 : (p + 1) * F * ((p + 1) * F) ≤ s * s := Nat.mul_le_mul h1 h1
      have h4 : (p + 1) * (p + 1) * (F * F) = (p + 1) * F * ((p + 1) * F) := by ring
      omega
    have hps : p * F ≤ s := by
      by_contra hne
      have h1 : s + 1 ≤ p * F := by omega
      have h2 : p * p * (F * F) ≤ n * (F * F) := Nat.mul_le_mul_right _ (Nat.le_of_lt hp)
      have h3 : (s + 1) * (s + 1) ≤ p * F * (p * F) := Nat.mul_le_mul h1 h1
      have h4 : p * p * (F * F) = p * F * (p * F) := by ring
      omega
    have hq : p * F + 1 ≤ (if n * (F * F) - s * s ≤ s then s else s + 1) := by
      split_ifs with hr
      · by_contra hne
        have hs : s = p * F := by omega
        have h2 : (p * p + 1) * (F * F) ≤ n * (F * F) := Nat.mul_le_mul_right _ hp
        have h4 : (p * p + 1) * (F * F) = p * F * (p * F) + F * F := by ring
        have h5 : (p + 1) * F ≤ F * F := Nat.mul_le_mul_right _ (by omega)
        rw [Nat.succ_mul] at h5
        rw [hs] at hr
        omega
      · omega
    have hq2 : (if n * (F * F) - s * s ≤ s then s else s + 1) ≤ (p + 1) * F := by
      split_ifs <;> omega
    generalize (if n * (F * F) - s * s ≤ s then s else s + 1) = q at hq hq2
    apply Nat.div_eq_of_lt_le
    · rw [Nat.succ_mul] at *; omega
    · rw [Nat.succ_mul] at *
      rw [Nat.succ_mul]
      omega

/-- For `n < 2 ^ 52` the float64 computation
`int(math.Ceil(math.Sqrt(float64(n))))` is the exact ceiling of the square
root: the least `c` with `c * c ≥ n`. -/
theorem ceilSqrtFloat64_exact (n c : Nat) (hn : n < 2 ^ 52) (hc : n ≤ c * c)
    (hmin : ∀ d, n ≤ d * d → c ≤ d) : ceilSqrtFloat64 n = c := by
  have hfl : float64OfInt n = n := float64OfInt_exact n (by omega)
  have hc26 : c ≤ 2 ^ 26 := hmin (2 ^ 26) (by norm_num at hn ⊢; omega)
  have hs0 := (isqrt_spec n (by norm_num at hn ⊢; omega)).1
  have hs26 : isqrt n < 2 ^ 26 := by
    by_contra hne
    have h1 : 2 ^ 26 ≤ isqrt n := by omega
    have h2 : 2 ^ 26 * 2 ^ 26 ≤ isqrt n * isqrt n := Nat.mul_le_mul h1 h1
    norm_num at h2 hn
    omega
  have hb := bitLength_le 64 (isqrt n) 26 hs26
  obtain ⟨f, hf⟩ : ∃ f, f = 53 - bitLength 64 (isqrt n) := ⟨_, rfl⟩
  have hf1 : 27 ≤ f := by omega
  have hf2 : f ≤ 53 := by omega
  have hF1 : 2 ^ 27 ≤ 2 ^ f := Nat.pow_le_pow_right (by norm_num) hf1
  have hF2 : 2 ^ f ≤ 2 ^ 53 := Nat.pow_le_pow_right (by norm_num) hf2
  have h4 : 4 ^ f = 2 ^ f * 2 ^ f := by
    rw [← Nat.mul_pow]
  have hy : n * (2 ^ f * 2 ^ f) < 2 ^ 256 := by
    have h1 : 2 ^ f * 2 ^ f ≤ 2 ^ 53 * 2 ^ 53 := Nat.mul_le_mul hF2 hF2
    have h2 : n * (2 ^ f * 2 ^ f) ≤ 2 ^ 52 * (2 ^ 53 * 2 ^ 53) :=
      Nat.mul_le_mul (Nat.le_of_lt hn) h1
    have h3 : 2 ^ 52 * (2 ^ 53 * 2 ^ 53) < 2 ^ 256 := by norm_num
    omega
  have hs := isqrt_spec _ hy
  have := ceil_rounded_sqrt n c (2 ^ f) (isqrt (n * (2 ^ f * 2 ^ f)))
    (by norm_num at hc26 hF1 ⊢; omega) hc hmin hs.1 hs.2
  simp only [ceilSqrtFloat64, ceilToInt, sqrtFloat64, hfl, ← hf, h4]
  exact this

/-! ## Lemmas: one pass over the cursors -/

/-- With one cursor per chunk, iteration `i` of the inner loop reads within
bounds, and keeps or replaces the minimum found so far. -/
theorem scanStep_eq (chunks : List (List Int)) (indices : List Nat) (s : Scan) (i : Nat)
    (hlen : indices.length = chunks.length) (hi : i < chunks.length) :
    scanStep chunks indices s i = .ok
      (match cursorVal chunks indices i with
       | none => s
       | some v => if s.first = true ∨ v < s.minVal then
           { minIdx := (i : Int), minVal := v, first := false } else s) := by
  have hi2 : i < indices.length := by omega
  have e1 : chunks[i]? = some chunks[i] := List.getElem?_eq_getElem hi
  have e2 : indices[i]? = some indices[i] := List.getElem?_eq_getElem hi2
  simp only [scanStep, index, cursorVal, e1, e2, bind, Except.bind, pure, Except.pure]
  by_cases hcur : indices[i] < chunks[i].length
  · have e3 : chunks[i][indices[i]]? = some (chunks[i][indices[i]]) :=
      List.getElem?_eq_getElem hcur
    have hn : ¬ chunks[i].length ≤ indices[i] := by omega
    simp only [e3, hn, if_false, ge_iff_le, Bool.or_eq_true, decide_eq_true_eq]
    split_ifs <;> rfl
  · have e3 : chunks[i][indices[i]]? = none := List.getElem?_eq_none (by omega)
    simp [e3, hcur]

theorem ScanInv_init (chunks : List (List Int)) (indices : List Nat) :
    ScanInv chunks indices 0 { minIdx := -1, minVal := 0, first := true } :=
  Or.inl ⟨rfl, rfl, fun _ h => absurd h (Nat.not_lt_zero _)⟩

theorem ScanInv_step (chunks : List (List Int)) (indices : List Nat) (m : Nat) (s : Scan)
    (h : ScanInv chunks indices m s) :
    ScanInv chunks indices (m + 1)
      (match cursorVal chunks indices m with
       | none => s
       | some v => if s.first = true ∨ v < s.minVal then
           { minIdx := (m : Int), minVal := v, first := false } else s) := by
  cases hcv : cursorVal chunks indices m with
  | none =>
    simp only []
    rcases h with ⟨h1, h2, h3⟩ | ⟨h1, j, hj, h2, h3, h4⟩
    · refine Or.inl ⟨h1, h2, fun i hi => ?_⟩
      rcases Nat.lt_succ_iff_lt_or_eq.mp hi with hlt | heq
      · exact h3 i hlt
      · rw [heq]; exact hcv
    · refine Or.inr ⟨h1, j, by omega, h2, h3, fun i v hi hv => ?_⟩
      rcases Nat.lt_succ_iff_lt_or_eq.mp hi with hlt | heq
      · exact h4 i v hlt hv
      · rw [heq, hcv] at hv; cases hv
  | some v =>
    simp only []
    rcases h with ⟨h1, _, h3⟩ | ⟨h1, j, hj, h2, h3, h4⟩
    · rw [if_pos (Or.inl h1)]
      refine Or.inr ⟨rfl, m, by omega, rfl, hcv, fun i w hi hw => ?_⟩
      rcases Nat.lt_succ_iff_lt_or_eq.mp hi with hlt | heq
      · rw [h3 i hlt] at hw; cases hw
      · rw [heq, hcv] at hw
        cases hw
        exact ⟨le_refl _, fun hlt => absurd hlt (by omega)⟩
    · by_cases hlt : v < s.minVal
      · rw [if_pos (Or.inr hlt)]
        refine Or.inr ⟨rfl, m, by omega, rfl, hcv, fun i w hi hw => ?_⟩
        rcases Nat.lt_succ_iff_lt_or_eq.mp hi with hi2 | heq
        · have := (h4 i w hi2 hw).1
          exact ⟨by simp only []; omega, fun _ => by simp only []; omega⟩
        · rw [heq, hcv] at hw
          cases hw
          exact ⟨le_refl _, fun h => absurd h (by omega)⟩
      · have hcond : ¬ (s.first = true ∨ v < s.minVal) := by
          rintro (hf | hv)
          · rw [h1] at hf; cases hf
          · exact hlt hv
        rw [if_neg hcond]
        refine Or.inr ⟨h1, j, by omega, h2, h3, fun i w hi hw => ?_⟩
        rcases Nat.lt_succ_iff_lt_or_eq.mp hi with hi2 | heq
        · exact h4 i w hi2 hw
        · rw [heq, hcv] at hw
          cases hw
          exact ⟨by omega, fun h => absurd h (by omega)⟩

theorem scan_upto (chunks : List (List Int)) (indices : List Nat)
    (hlen : indices.length = chunks.length) (m : Nat) (hm : m ≤ chunks.length) :
    ∃ s, (List.range m).foldlM (scanStep chunks indices)
        { minIdx := -1, minVal := 0, first := true } = .ok s ∧
      ScanInv chunks indices m s := by
  induction m with
  | zero => exact ⟨_, rfl, ScanInv_init chunks indices⟩
  | succ m ih =>
    obtain ⟨s, hs, hinv⟩ := ih (by omega)
    refine ⟨_, ?_, ScanInv_step chunks indices m s hinv⟩
    rw [List.range_succ, List.foldlM_append, hs]
    simp only [bind, Except.bind, List.foldlM, pure, Except.pure]
    rw [scanStep_eq chunks indices s m hlen (by omega)]

/-- The inner loop returns, and its result satisfies the scan invariant for
all chunks. -/
theorem scan_spec (chunks : List (List Int)) (indices : List Nat)
    (hlen : indices.length = chunks.length) :
    ∃ s, scan chunks indices = .ok s ∧ ScanInv chunks indices chunks.length s :=
  scan_upto chunks indices hlen chunks.length (Nat.le_refl _)

/-! ## Lemmas: the elements still to merge -/

theorem remaining_length (chunks : List (List Int)) (indices : List Nat)
    (hlen : indices.length = chunks.length) :
    (remaining chunks indices).length = chunks.length := by
  simp [remaining, List.length_zipWith, hlen]

theorem remaining_getElem? (chunks : List (List Int)) (indices : List Nat) (i : Nat) :
    (remaining chunks indices)[i]? =
      match chunks[i]?, indices[i]? with
      | some chunk, some cursor => some (chunk.drop cursor)
      | _, _ => none := by
  simp only [remaining, List.getElem?_zipWith]
  cases chunks[i]? <;> cases indices[i]? <;> rfl

theorem remaining_of_cursorVal_some (chunks : List (List Int)) (indices : List Nat)
    (i : Nat) (v : Int) (h : cursorVal chunks indices i = some v) :
    ∃ chunk cursor, chunks[i]? = some chunk ∧ indices[i]? = some cursor ∧
      cursor < chunk.length ∧
      (remaining chunks indices)[i]? = some (v :: chunk.drop (cursor + 1)) := by
  rw [remaining_getElem?]
  simp only [cursorVal] at h
  cases hc : chunks[i]? with
  | none => simp [hc] at h
  | some chunk =>
    cases hi : indices[i]? with
    | none => simp [hc, hi] at h
    | some cursor =>
      simp only [hc, hi] at h
      obtain ⟨hlt, hv⟩ := List.getElem?_eq_some_iff.mp h
      refine ⟨chunk, cursor, rfl, rfl, hlt, ?_⟩
      simp only []
      rw [List.drop_eq_getElem_cons hlt, hv]

theorem remaining_of_cursorVal_none (chunks : List (List Int)) (indices : List Nat)
    (i : Nat) (h : cursorVal chunks indices i = none) :
    (remaining chunks indices)[i]? = none ∨ (remaining chunks indices)[i]? = some [] := by
  rw [remaining_getElem?]
  simp only [cursorVal] at h
  cases hc : chunks[i]? with
  | none => simp
  | some chunk =>
    cases hi : indices[i]? with
    | none => simp
    | some cursor =>
      simp only [hc, hi] at h
      right
      simp only []
      have := List.getElem?_eq_none_iff.mp h
      rw [List.drop_eq_nil_of_le this]

theorem remaining_set (chunks : List (List Int)) (indices : List Nat) (j x : Nat)
    (chunk : List Int) (hc : chunks[j]? = some chunk) :
    remaining chunks (indices.set j x) = (remaining chunks indices).set j (chunk.drop x) := by
  apply List.ext_getElem?
  intro n
  rw [List.getElem?_set, remaining_getElem?, remaining_getElem?, List.getElem?_set]
  by_cases hjn : j = n
  · subst hjn
    simp only [if_true, hc, remaining_length]
    by_cases hl : j < indices.length
    · have hl2 : j < (remaining chunks indices).length := by
        have hj : j < chunks.length := (List.getElem?_eq_some_iff.mp hc).1
        simp only [remaining, List.length_zipWith]
        omega
      simp [hl, hl2]
    · have hl2 : ¬ j < (remaining chunks indices).length := by
        simp only [remaining, List.length_zipWith]
        omega
      have : indices[j]? = none := List.getElem?_eq_none (by omega)
      simp [hl, hl2, this]
  · simp only [if_neg hjn]

/-- Taking the head off one of the lists removes exactly that element from
the concatenation. -/
theorem flatten_set_perm (R : List (List Int)) : ∀ (j : Nat) (v : Int) (t : List Int),
    R[j]? = some (v :: t) → R.flatten.Perm (v :: (R.set j t).flatten) := by
  induction R with
  | nil => intro j v t h; simp at h
  | cons r R ih =>
    intro j v t h
    cases j with
    | zero =>
      simp only [List.getElem?_cons_zero, Option.some.injEq] at h
      subst h
      simp
    | succ j =>
      simp only [List.getElem?_cons_succ] at h
      simp only [List.set_cons_succ, List.flatten_cons]
      have := (ih j v t h).append_left r
      exact this.trans List.perm_middle

theorem flatten_nil_of_getElem? (R : List (List Int))
    (h : ∀ i : Nat, R[i]? = none ∨ R[i]? = some []) : R.flatten = [] := by
  rw [List.flatten_eq_nil_iff]
  intro l hl
  obtain ⟨n, hn⟩ := List.mem_iff_getElem?.mp hl
  rcases h n with h1 | h1
  · rw [h1] at hn; cases hn
  · rw [h1] at hn; cases hn; rfl

/-! ## Lemmas: the merge loop -/

/-- One iteration of the outer loop: either every cursor is at the end of its
chunk and the loop breaks, or the first chunk with a least cursor element is
advanced by one and that element is appended to the output. -/
theorem mergeStep_spec (chunks : List (List Int)) (st : MergeState)
    (hlen : st.indices.length = chunks.length) :
    (mergeStep chunks st = .ok none ∧ (remaining chunks st.indices).flatten = []) ∨
    (∃ j v t cursor, j < chunks.length ∧ st.indices[j]? = some cursor ∧
      (remaining chunks st.indices)[j]? = some (v :: t) ∧
      (∀ i w, cursorVal chunks st.indices i = some w → v ≤ w ∧ (i < j → v < w)) ∧
      mergeStep chunks st =
        .ok (some (MergeState.mk (st.indices.set j (cursor + 1)) (st.result ++ [v]))) ∧
      remaining chunks (st.indices.set j (cursor + 1)) =
        (remaining chunks st.indices).set j t) := by
  obtain ⟨s, hs, hinv⟩ := scan_spec chunks st.indices hlen
  rcases hinv with ⟨_, h2, h3⟩ | ⟨_, j, hj, h2, h3, h4⟩
  · left
    constructor
    · simp [mergeStep, hs, h2, bind, Except.bind, pure, Except.pure]
    · apply flatten_nil_of_getElem?
      intro i
      by_cases hi : i < chunks.length
      · exact remaining_of_cursorVal_none chunks st.indices i (h3 i hi)
      · left
        apply List.getElem?_eq_none
        rw [remaining_length chunks st.indices hlen]
        omega
  · right
    obtain ⟨chunk, cursor, hc, hi, _, hr⟩ :=
      remaining_of_cursorVal_some chunks st.indices j s.minVal h3
    refine ⟨j, s.minVal, chunk.drop (cursor + 1), cursor, hj, hi, hr, ?_, ?_, ?_⟩
    · intro i w hw
      obtain ⟨_, _, hc2, _, _, _⟩ := remaining_of_cursorVal_some chunks st.indices i w hw
      exact h4 i w (List.getElem?_eq_some_iff.mp hc2).1 hw
    · have hne : ¬ ((j : Int) = -1) := by omega
      simp [mergeStep, hs, h2, hne, index, hi, bind, Except.bind, pure, Except.pure]
    · exact remaining_set chunks st.indices j (cursor + 1) chunk hc

theorem cursorVal_of_remaining (chunks : List (List Int)) (indices : List Nat)
    (i : Nat) (w : Int) (r : List Int)
    (h : (remaining chunks indices)[i]? = some (w :: r)) :
    cursorVal chunks indices i = some w := by
  rw [remaining_getElem?] at h
  simp only [cursorVal]
  cases hc : chunks[i]? with
  | none => simp [hc] at h
  | some chunk =>
    cases hi : indices[i]? with
    | none => simp [hc, hi] at h
    | some cursor =>
      simp only [hc, hi, Option.some.injEq] at h
      have : (chunk.drop cursor)[0]? = some w := by rw [h]; simp
      rw [List.getElem?_drop] at this
      simpa using this

theorem le_of_mem_remaining (chunks : List (List Int)) (indices : List Nat) (v : Int)
    (hmin : ∀ i w, cursorVal chunks indices i = some w → v ≤ w)
    (hsorted : ∀ r ∈ remaining chunks indices, r.Sorted (· ≤ ·))
    (y : Int) (hy : y ∈ (remaining chunks indices).flatten) : v ≤ y := by
  obtain ⟨r, hr, hyr⟩ := List.mem_flatten.mp hy
  obtain ⟨i, hi⟩ := List.mem_iff_getElem?.mp hr
  cases r with
  | nil => cases hyr
  | cons w r =>
    have h1 := hmin i w (cursorVal_of_remaining chunks indices i w r hi)
    have h2 := hsorted _ hr
    rcases List.mem_cons.mp hyr with heq | hmem
    · rw [heq]; exact h1
    · exact le_trans h1 (List.rel_of_sorted_cons h2 y hmem)

/-- The outer loop, given more unrollings than there are elements left,
returns; its output is a permutation of the output so far followed by the
elements left, and it is sorted when the chunks are sorted and the output so
far is sorted and bounded by the elements left. -/
theorem mergeLoop_spec (chunks : List (List Int)) : ∀ (fuel : Nat) (st : MergeState),
    st.indices.length = chunks.length →
    (remaining chunks st.indices).flatten.length < fuel →
    ∃ out, mergeLoop chunks fuel st = .ok out ∧
      out.Perm (st.result ++ (remaining chunks st.indices).flatten) ∧
      ((∀ r ∈ remaining chunks st.indices, r.Sorted (· ≤ ·)) →
        st.result.Sorted (· ≤ ·) →
        (∀ x ∈ st.result, ∀ y ∈ (remaining chunks st.indices).flatten, x ≤ y) →
        out.Sorted (· ≤ ·)) := by
  intro fuel
  induction fuel with
  | zero => intro st _ h; exact absurd h (Nat.not_lt_zero _)
  | succ fuel ih =>
    intro st hlen hfuel
    rcases mergeStep_spec chunks st hlen with ⟨hstep, hnil⟩ |
      ⟨j, v, t, cursor, _, _, hrj, hmin, hstep, hrem⟩
    · refine ⟨st.result, ?_, ?_, fun _ h _ => h⟩
      · simp [mergeLoop, hstep, bind, Except.bind, pure, Except.pure]
      · rw [hnil, List.append_nil]
    · have hperm := flatten_set_perm (remaining chunks st.indices) j v t hrj
      have hl := hperm.length_eq
      simp only [List.length_cons] at hl
      obtain ⟨out, hout, hp, hs⟩ := ih (MergeState.mk (st.indices.set j (cursor + 1))
        (st.result ++ [v])) (by simp [hlen]) (by simp only []; rw [hrem]; omega)
      simp only [hrem] at hp hs
      refine ⟨out, ?_, ?_, ?_⟩
      · simp only [mergeLoop, hstep, bind, Except.bind]
        exact hout
      · refine hp.trans ?_
        rw [List.append_assoc]
        exact (List.Perm.append_left st.result hperm.symm)
      · intro hsorted hres hle
        have hv : ∀ y ∈ (remaining chunks st.indices).flatten, v ≤ y :=
          le_of_mem_remaining chunks st.indices v (fun i w hw => (hmin i w hw).1) hsorted
        have hvmem : v ∈ (remaining chunks st.indices).flatten :=
          hperm.symm.subset (List.mem_cons_self _ _)
        have hsub : ∀ y ∈ ((remaining chunks st.indices).set j t).flatten,
            y ∈ (remaining chunks st.indices).flatten :=
          fun y hy => hperm.symm.subset (List.mem_cons_of_mem _ hy)
        apply hs
        · intro r hr
          rcases List.mem_or_eq_of_mem_set hr with hmem | heq
          · exact hsorted r hmem
          · rw [heq]
            exact (hsorted _ (List.mem_iff_getElem?.mpr ⟨j, hrj⟩)).tail
        · rw [List.Sorted, List.pairwise_append]
          exact ⟨hres, List.pairwise_singleton _ _, fun x hx y hy => by
            rw [List.mem_singleton.mp hy]; exact hle x hx v hvmem⟩
        · intro x hx y hy
          rcases List.mem_append.mp hx with h1 | h1
          · exact hle x h1 y (hsub y hy)
          · rw [List.mem_singleton.mp h1]; exact hv y (hsub y hy)

/-- Once the loop has returned, further unrollings do not change its
result. -/
theorem mergeLoop_fuel_mono (chunks : List (List Int)) : ∀ (fuel : Nat) (st : MergeState)
    (out : List Int), mergeLoop chunks fuel st = .ok out →
    ∀ more, mergeLoop chunks (fuel + more) st = .ok out := by
  intro fuel
  induction fuel with
  | zero => intro st out h; simp [mergeLoop] at h
  | succ fuel ih =>
    intro st out h more
    rw [Nat.add_right_comm]
    simp only [mergeLoop, bind, Except.bind] at h ⊢
    cases hstep : mergeStep chunks st with
    | error e => rw [hstep] at h; cases h
    | ok next =>
      rw [hstep] at h
      cases next with
      | none => exact h
      | some st2 => exact ih st2 out h more

theorem foldl_length_add (chunks : List (List Int)) : ∀ acc : Nat,
    chunks.foldl (fun acc chunk => acc + chunk.length) acc = acc + chunks.flatten.length := by
  induction chunks with
  | nil => intro acc; simp
  | cons c cs ih => intro acc; simp [ih, Nat.add_assoc]

theorem totalLength_eq (chunks : List (List Int)) :
    totalLength chunks = chunks.flatten.length := by
  simp [totalLength, foldl_length_add]

theorem remaining_start (chunks : List (List Int)) :
    remaining chunks (List.replicate chunks.length 0) = chunks := by
  induction chunks with
  | nil => rfl
  | cons c cs ih =>
    simp only [remaining] at ih
    simp [remaining, List.replicate_succ, ih]

theorem mergeSortedChunksFuel_spec (fuel : Nat) (chunks : List (List Int))
    (hfuel : chunks.flatten.length < fuel) :
    ∃ out, mergeSortedChunksFuel fuel chunks = .ok out ∧ out.Perm chunks.flatten ∧
      ((∀ chunk ∈ chunks, chunk.Sorted (· ≤ ·)) → out.Sorted (· ≤ ·)) := by
  match chunks, hfuel with
  | [], _ => exact ⟨[], rfl, List.Perm.refl _, fun _ => List.sorted_nil⟩
  | [chunk], _ =>
    refine ⟨chunk, rfl, by simp, fun h => h chunk (List.mem_singleton_self _)⟩
  | a :: b :: rest, hfuel =>
    obtain ⟨out, hout, hp, hs⟩ := mergeLoop_spec (a :: b :: rest) fuel
      (MergeState.mk (List.replicate (a :: b :: rest).length 0) [])
      (by simp) (by simp only []; rw [remaining_start]; exact hfuel)
    simp only [remaining_start, List.nil_append] at hp hs
    refine ⟨out, ?_, hp, fun h => hs h List.sorted_nil (fun x hx => by cases hx)⟩
    simp only [mergeSortedChunksFuel, List.length_cons]
    rw [if_neg (by omega), if_neg (by omega)]
    exact hout

/-- The function `mergeSortedChunks` returns on every list of chunks, with a
permutation of their concatenation, sorted when every chunk is sorted. -/
theorem mergeSortedChunks_spec (chunks : List (List Int)) :
    ∃ out, mergeSortedChunks chunks = .ok out ∧ out.Perm chunks.flatten ∧
      ((∀ chunk ∈ chunks, chunk.Sorted (· ≤ ·)) → out.Sorted (· ≤ ·)) :=
  mergeSortedChunksFuel_spec _ chunks (by rw [totalLength_eq]; omega)

/-- Any number of unrollings above `totalLength` gives the result of
`mergeSortedChunks`. -/
theorem mergeLoop_fuel_irrelevant (fuel : Nat) (chunks : List (List Int))
    (hfuel : totalLength chunks < fuel) :
    mergeSortedChunksFuel fuel chunks = mergeSortedChunks chunks := by
  obtain ⟨more, rfl⟩ : ∃ more, fuel = totalLength chunks + 1 + more := ⟨fuel - (totalLength chunks + 1), by omega⟩
  obtain ⟨out, hout, _⟩ := mergeSortedChunks_spec chunks
  rw [hout]
  simp only [mergeSortedChunks, mergeSortedChunksFuel] at hout ⊢
  split_ifs at hout ⊢ with h0 h1
  · exact hout
  · exact hout
  · exact mergeLoop_fuel_mono chunks _ _ out hout more

/-! ## Lemmas: sorting and the pipeline -/

theorem sortInts_sorted (l : List Int) : (sortInts l).Sorted (· ≤ ·) :=
  List.sorted_insertionSort _ l

theorem sortInts_perm (l : List Int) : (sortInts l).Perm l :=
  List.perm_insertionSort _ l

/-- Any routine that returns a sorted permutation of its input, as `sort.Ints`
does, agrees with `sortInts`. -/
theorem sortInts_unique (f : List Int → List Int)
    (hf : ∀ l, (f l).Sorted (· ≤ ·) ∧ (f l).Perm l) (l : List Int) : f l = sortInts l :=
  List.eq_of_perm_of_sorted ((hf l).2.trans (sortInts_perm l).symm) (hf l).1
    (sortInts_sorted l)

theorem sortChunksConcurrently_flatten_perm (chunks : List (List Int)) :
    (sortChunksConcurrently chunks).flatten.Perm chunks.flatten := by
  induction chunks with
  | nil => exact List.Perm.refl _
  | cons c cs ih =>
    simp only [sortChunksConcurrently, List.map_cons, List.flatten_cons] at ih ⊢
    exact List.Perm.append (sortInts_perm c) ih

theorem sortChunksConcurrently_sorted (chunks : List (List Int)) :
    ∀ chunk ∈ sortChunksConcurrently chunks, chunk.Sorted (· ≤ ·) := by
  intro chunk h
  obtain ⟨c, _, rfl⟩ := List.mem_map.mp h
  exact sortInts_sorted c

/-- The function `process` returns on every sequence, with a sorted
permutation of it. -/
theorem process_spec (numbers : List Int) :
    ∃ out, process numbers = .ok out ∧ out.Perm numbers ∧ out.Sorted (· ≤ ·) := by
  have hsplit := splitIntoChunks_eq numbers
  have hflat := computedChunks_flatten numbers
    (numbers.length / numChunksOf numbers.length)
    (numbers.length % numChunksOf numbers.length) (numChunksOf numbers.length)
  have hk : 0 < numChunksOf numbers.length := by
    have := numChunksOf_ge numbers.length; omega
  rw [chunkOffset_total _ _ hk, List.take_length] at hflat
  obtain ⟨out, hout, hp, hs⟩ := mergeSortedChunks_spec (sortChunksConcurrently
    (computedChunks numbers (numbers.length / numChunksOf numbers.length)
      (numbers.length % numChunksOf numbers.length) (numChunksOf numbers.length)))
  refine ⟨out, ?_, ?_, hs (sortChunksConcurrently_sorted _)⟩
  · simp only [process, hsplit, bind, Except.bind]
    exact hout
  · have := sortChunksConcurrently_flatten_perm (computedChunks numbers
      (numbers.length / numChunksOf numbers.length)
      (numbers.length % numChunksOf numbers.length) (numChunksOf numbers.length))
    rw [hflat] at this
    exact hp.trans this

/-! ## Lemmas: sizes and number of the chunks -/

/-- In a concatenation, the list at position `i` is the run that starts after
the lists before it. -/
theorem getElem?_flatten_slice (L : List (List Int)) : ∀ (i : Nat) (c : List Int),
    L[i]? = some c →
    c = (L.flatten.drop (L.take i).flatten.length).take c.length := by
  induction L with
  | nil => intro i c h; simp at h
  | cons r R ih =>
    intro i c h
    cases i with
    | zero =>
      simp only [List.getElem?_cons_zero, Option.some.injEq] at h
      subst h
      simp
    | succ i =>
      simp only [List.getElem?_cons_succ] at h
      have := ih i c h
      simp only [List.take_succ_cons, List.flatten_cons, List.length_append]
      rw [List.drop_append]
      exact this

/-- The lengths of the returned chunks are the non-zero computed sizes, in
order. -/
theorem computedChunks_lengths (numbers : List Int) (base extra m : Nat)
    (h : chunkOffset base extra m ≤ numbers.length) :
    (computedChunks numbers base extra m).map List.length =
      ((List.range m).map (chunkSize base extra)).filter (· ≠ 0) := by
  induction m with
  | zero => simp [computedChunks]
  | succ m ih =>
    have hstep := chunkOffset_succ base extra m
    rw [computedChunks_succ, List.map_append, ih (by omega), List.range_succ,
      List.map_append, List.filter_append]
    congr 1
    by_cases hz : chunkSize base extra m = 0
    · simp [hz]
    · simp [hz]
      omega

theorem filter_lt_range (n : Nat) : ∀ k : Nat,
    ((List.range k).filter (fun i => decide (i < n))).length = min n k := by
  intro k
  induction k with
  | zero => simp
  | succ k ih =>
    rw [List.range_succ, List.filter_append, List.length_append, ih]
    by_cases h : k < n
    · simp [h]; omega
    · simp [h]; omega

theorem chunkSize_ne_zero_iff (n k i : Nat) (hk : 0 < k) :
    chunkSize (n / k) (n % k) i ≠ 0 ↔ (k ≤ n ∨ i < n) := by
  simp only [chunkSize]
  by_cases hnk : n < k
  · rw [Nat.div_eq_of_lt hnk, Nat.mod_eq_of_lt hnk]
    split_ifs <;> omega
  · have : 0 < n / k := Nat.div_pos (by omega) hk
    split_ifs <;> omega

/-- Among the `k` computed sizes, `min n k` are not zero. -/
theorem count_nonzero_chunks (n k : Nat) (hk : 0 < k) :
    (((List.range k).map (chunkSize (n / k) (n % k))).filter (· ≠ 0)).length = min n k := by
  rw [List.filter_map, List.length_map]
  by_cases hnk : k ≤ n
  · rw [List.filter_eq_self.mpr, List.length_range]
    · omega
    · intro i hi
      have := (chunkSize_ne_zero_iff n k i hk).mpr (Or.inl hnk)
      simpa using this
  · rw [← filter_lt_range n k]
    congr 1
    apply List.filter_congr
    intro i _
    have := chunkSize_ne_zero_iff n k i hk
    simp only [Function.comp]
    by_cases h : i < n
    · have h2 := this.mpr (Or.inr h)
      simp [h, h2]
    · have h2 : ¬ chunkSize (n / k) (n % k) i ≠ 0 := fun hc => by
        rcases this.mp hc with h3 | h3 <;> omega
      simp [h]
      simpa using h2

theorem count_zero_chunks (n k : Nat) (hk : 0 < k) :
    ((List.range k).filter (fun i => decide (chunkSize (n / k) (n % k) i = 0))).length =
      k - min n k := by
  have h1 := count_nonzero_chunks n k hk
  rw [List.filter_map, List.length_map] at h1
  have h2 : ∀ l : List Nat,
      (l.filter (fun i => decide (chunkSize (n / k) (n % k) i = 0))).length +
        (l.filter ((fun x => decide (x ≠ 0)) ∘ chunkSize (n / k) (n % k))).length =
        l.length := by
    intro l
    induction l with
    | nil => rfl
    | cons a l ih =>
      by_cases ha : chunkSize (n / k) (n % k) a = 0
      · simp [List.filter_cons, ha] at ih ⊢; omega
      · simp [List.filter_cons, ha] at ih ⊢; omega
  have h3 := h2 (List.range k)
  rw [h1, List.length_range] at h3
  omega

/-- For `n < 2 ^ 52`, `numChunks` is `max 4 c` for the least `c` with
`c * c ≥ n`. -/
theorem numChunksOf_exact (n c : Nat) (hn : n < 2 ^ 52) (hc : n ≤ c * c)
    (hmin : ∀ d, n ≤ d * d → c ≤ d) : numChunksOf n = max 4 c := by
  simp only [numChunksOf, ceilSqrtFloat64_exact n c hn hc hmin]
  split_ifs <;> omega

theorem allChunks_succ (numbers : List Int) (base extra m : Nat) :
    allChunks numbers base extra (m + 1) = allChunks numbers base extra m ++
      [(numbers.drop (chunkOffset base extra m)).take (chunkSize base extra m)] := by
  simp [allChunks, List.range_succ]

theorem allChunks_spec (numbers : List Int) (base extra m : Nat)
    (h : chunkOffset base extra m ≤ numbers.length) :
    (allChunks numbers base extra m).map List.length =
        (List.range m).map (chunkSize base extra) ∧
      (allChunks numbers base extra m).flatten = numbers.take (chunkOffset base extra m) ∧
      computedChunks numbers base extra m =
        (allChunks numbers base extra m).filter (· ≠ []) := by
  induction m with
  | zero => simp [allChunks, computedChunks, chunkOffset]
  | succ m ih =>
    have hstep := chunkOffset_succ base extra m
    obtain ⟨ih1, ih2, ih3⟩ := ih (by omega)
    have hl : ((numbers.drop (chunkOffset base extra m)).take
        (chunkSize base extra m)).length = chunkSize base extra m := by
      simp only [List.length_take, List.length_drop]; omega
    refine ⟨?_, ?_, ?_⟩
    · rw [allChunks_succ, List.map_append, ih1, List.range_succ, List.map_append]
      simp only [List.map_cons, List.map_nil, hl]
    · rw [allChunks_succ, List.flatten_append, ih2, hstep, List.take_add]
      simp
    · rw [allChunks_succ, computedChunks_succ, List.filter_append, ih3]
      congr 1
      by_cases hz : chunkSize base extra m = 0
      · have : (numbers.drop (chunkOffset base extra m)).take (chunkSize base extra m) = [] := by
          rw [hz]; rfl
        simp [hz]
      · have : (numbers.drop (chunkOffset base extra m)).take (chunkSize base extra m) ≠ [] := by
          intro hnil
          rw [hnil] at hl
          exact hz hl.symm
        simp [hz, this]

theorem chunk_length_cases (numbers : List Int) (base extra m : Nat)
    (h : chunkOffset base extra m ≤ numbers.length) :
    ∀ chunk ∈ computedChunks numbers base extra m,
      chunk.length ≠ 0 ∧ (chunk.length = base ∨ chunk.length = base + 1) := by
  intro chunk hmem
  have hl := computedChunks_lengths numbers base extra m h
  have h1 : chunk.length ∈ (computedChunks numbers base extra m).map List.length :=
    List.mem_map.mpr ⟨chunk, hmem, rfl⟩
  rw [hl, List.mem_filter, List.mem_map] at h1
  obtain ⟨⟨i, _, hi⟩, hne⟩ := h1
  refine ⟨by simpa using hne, ?_⟩
  rw [← hi]
  simp only [chunkSize]
  split_ifs
  · right; rfl
  · left; rfl

/-! ## Runs on concrete inputs -/

set_option maxRecDepth 100000 in
theorem process_nil : process [] = .ok [] := by decide

set_option maxRecDepth 100000 in
theorem splitIntoChunks_nil : splitIntoChunks [] = .ok [] := by decide

set_option maxRecDepth 100000 in
theorem splitIntoChunks_ten :
    splitIntoChunks [5, 3, 8, 1, 9, 2, 7, 4, 6, 0] =
      .ok [[5, 3, 8], [1, 9, 2], [7, 4], [6, 0]] := by decide

set_option maxRecDepth 100000 in
theorem splitIntoChunks_two : splitIntoChunks [7, -1] = .ok [[7], [-1]] := by decide

set_option maxRecDepth 100000 in
theorem mergeSortedChunks_three :
    mergeSortedChunks [[1, 4], [], [-2, 3, 3]] = .ok [-2, 1, 3, 3, 4] := by decide

set_option maxRecDepth 100000 in
/-- The bound `2 ^ 52` of `ceilSqrtFloat64_exact` cannot be raised: the square
root of `2 ^ 52 + 1` rounds to the float64 `2 ^ 26`, whose ceiling is one less
than the least `c` with `c * c ≥ 2 ^ 52 + 1`.  No Go slice of `int` is that
long: its `2 ^ 55` bytes exceed the address space of every platform Go runs
on. -/
theorem ceilSqrtFloat64_above_bound :
    ceilSqrtFloat64 (2 ^ 52 + 1) = 2 ^ 26 ∧ 2 ^ 26 * 2 ^ 26 < 2 ^ 52 + 1 := by decide

theorem least_root_ten : ∀ d : Nat, 10 ≤ d * d → 4 ≤ d := by
  intro d hd
  by_contra h
  have h3 : d ≤ 3 := by omega
  interval_cases d <;> omega

theorem least_root_two : ∀ d : Nat, 2 ≤ d * d → 2 ≤ d := by
  intro d hd
  by_contra h
  have h3 : d ≤ 1 := by omega
  interval_cases d <;> omega

/-! ## The claims of the specification -/

/-- C1. For every integer sequence `S` (of any length, duplicates and negative
values included) `process S` returns, and its output is non-decreasing: each
element is at most the element that follows it, and hence at most every later
element. -/
theorem process_nondecreasing (S : List Int) :
    ∃ out, process S = .ok out ∧ out.Chain' (· ≤ ·) ∧ out.Sorted (· ≤ ·) := by
  obtain ⟨out, hout, _, hs⟩ := process_spec S
  exact ⟨out, hout, List.Pairwise.chain' hs, hs⟩

/-- C2. For every integer sequence `S` the output of `process S` is a
permutation of `S`: every integer occurs in it exactly as often as in `S`, and
it has the length of `S`. -/
theorem process_permutation (S : List Int) :
    ∃ out, process S = .ok out ∧ out.Perm S ∧ (∀ a : Int, out.count a = S.count a) ∧
      out.length = S.length := by
  obtain ⟨out, hout, hp, _⟩ := process_spec S
  exact ⟨out, hout, hp, fun a => hp.count_eq a, hp.length_eq⟩

/-- C3. For every sequence `S`, `splitIntoChunks S` returns chunks whose
concatenation, in the order returned, is exactly `S`; the chunk at position
`i` is the contiguous run of `S` that starts right after the elements of the
chunks before it. -/
theorem splitIntoChunks_concat (S : List Int) :
    ∃ chunks, splitIntoChunks S = .ok chunks ∧ chunks.flatten = S ∧
      ∀ (i : Nat) (chunk : List Int), chunks[i]? = some chunk →
        chunk = (S.drop (chunks.take i).flatten.length).take chunk.length := by
  have hk : 0 < numChunksOf S.length := by have := numChunksOf_ge S.length; omega
  have hflat := computedChunks_flatten S (S.length / numChunksOf S.length)
    (S.length % numChunksOf S.length) (numChunksOf S.length)
  rw [chunkOffset_total _ _ hk, List.take_length] at hflat
  refine ⟨_, splitIntoChunks_eq S, hflat, fun i chunk h => ?_⟩
  have := getElem?_flatten_slice _ i chunk h
  rw [hflat] at this
  exact this

/-- C4. For every list of chunks each of which is non-decreasing (any number
of chunks, empty chunks allowed), `mergeSortedChunks` returns a non-decreasing
sequence. -/
theorem mergeSortedChunks_sorted (chunks : List (List Int))
    (h : ∀ chunk ∈ chunks, chunk.Sorted (· ≤ ·)) :
    ∃ out, mergeSortedChunks chunks = .ok out ∧ out.Sorted (· ≤ ·) := by
  obtain ⟨out, hout, _, hs⟩ := mergeSortedChunks_spec chunks
  exact ⟨out, hout, hs h⟩

/-- Three sorted chunks, one of them empty, are merged into a sorted
sequence. -/
theorem mergeSortedChunks_sorted_witness :
    (∀ chunk ∈ [[1, 4], [], [-2, 3, 3]], chunk.Sorted (· ≤ ·)) ∧
      (∃ out, mergeSortedChunks [[1, 4], [], [-2, 3, 3]] = .ok out ∧ out.Sorted (· ≤ ·)) ∧
      mergeSortedChunks [[1, 4], [], [-2, 3, 3]] = .ok [-2, 1, 3, 3, 4] :=
  ⟨by decide, mergeSortedChunks_sorted [[1, 4], [], [-2, 3, 3]] (by decide),
    mergeSortedChunks_three⟩

/-- C5. For every list of chunks, sorted or not, `mergeSortedChunks` returns a
permutation of the concatenation of the chunks, so the length of its output
is the sum of the chunk lengths. -/
theorem mergeSortedChunks_permutation (chunks : List (List Int)) :
    ∃ out, mergeSortedChunks chunks = .ok out ∧ out.Perm chunks.flatten ∧
      out.length = (chunks.map List.length).sum := by
  obtain ⟨out, hout, hp, _⟩ := mergeSortedChunks_spec chunks
  exact ⟨out, hout, hp, by rw [hp.length_eq, List.length_flatten]⟩

/-- C6. Let `S` have length `n < 2 ^ 52`, let `c` be the least natural number
with `c * c ≥ n`, `k = max 4 c`, `base = n / k` and `r = n % k`.  Then
`splitIntoChunks S` computes `k` consecutive chunks, the `i`-th of size
`base + 1` when `i < r` and `base` otherwise, returns those of them that are
not empty, and the sizes of any two returned chunks differ by at most 1. -/
theorem splitIntoChunks_sizes (S : List Int) (c : Nat) (hn : S.length < 2 ^ 52)
    (hc : S.length ≤ c * c) (hmin : ∀ d, S.length ≤ d * d → c ≤ d) :
    ∃ (computed chunks : List (List Int)), splitIntoChunks S = .ok chunks ∧
      computed.map List.length = (List.range (max 4 c)).map (fun i =>
        if i < S.length % max 4 c then S.length / max 4 c + 1 else S.length / max 4 c) ∧
      computed.flatten = S ∧
      chunks = computed.filter (· ≠ []) ∧
      ∀ a ∈ chunks, ∀ b ∈ chunks, a.length ≤ b.length + 1 := by
  have hk := numChunksOf_exact S.length c hn hc hmin
  have hpos : 0 < max 4 c := by omega
  have htot := chunkOffset_total S.length (max 4 c) hpos
  have hsplit := splitIntoChunks_eq S
  rw [hk] at hsplit
  obtain ⟨h1, h2, h3⟩ := allChunks_spec S (S.length / max 4 c) (S.length % max 4 c)
    (max 4 c) (by omega)
  rw [htot, List.take_length] at h2
  refine ⟨_, _, hsplit, h1, h2, h3, fun a ha b hb => ?_⟩
  have hca := chunk_length_cases S _ _ _ (by omega) a ha
  have hcb := chunk_length_cases S _ _ _ (by omega) b hb
  omega

/-- The sequence of Scenario 1 has length 10: it is cut into 4 chunks of sizes
3, 3, 2, 2. -/
theorem splitIntoChunks_sizes_witness :
    ([5, 3, 8, 1, 9, 2, 7, 4, 6, 0] : List Int).length < 2 ^ 52 ∧
      ([5, 3, 8, 1, 9, 2, 7, 4, 6, 0] : List Int).length ≤ 4 * 4 ∧
      (∃ (computed chunks : List (List Int)), splitIntoChunks [5, 3, 8, 1, 9, 2, 7, 4, 6, 0] = .ok chunks ∧
        computed.map List.length = (List.range (max 4 4)).map (fun i =>
          if i < ([5, 3, 8, 1, 9, 2, 7, 4, 6, 0] : List Int).length % max 4 4
          then ([5, 3, 8, 1, 9, 2, 7, 4, 6, 0] : List Int).length / max 4 4 + 1
          else ([5, 3, 8, 1, 9, 2, 7, 4, 6, 0] : List Int).length / max 4 4) ∧
        computed.flatten = [5, 3, 8, 1, 9, 2, 7, 4, 6, 0] ∧
        chunks = computed.filter (· ≠ []) ∧
        ∀ a ∈ chunks, ∀ b ∈ chunks, a.length ≤ b.length + 1) ∧
      (List.range (max 4 4)).map (fun i =>
          if i < ([5, 3, 8, 1, 9, 2, 7, 4, 6, 0] : List Int).length % max 4 4
          then ([5, 3, 8, 1, 9, 2, 7, 4, 6, 0] : List Int).length / max 4 4 + 1
          else ([5, 3, 8, 1, 9, 2, 7, 4, 6, 0] : List Int).length / max 4 4) = [3, 3, 2, 2] ∧
      splitIntoChunks [5, 3, 8, 1, 9, 2, 7, 4, 6, 0] =
        .ok [[5, 3, 8], [1, 9, 2], [7, 4], [6, 0]] :=
  ⟨by decide, by decide,
    splitIntoChunks_sizes [5, 3, 8, 1, 9, 2, 7, 4, 6, 0] 4 (by decide) (by decide)
      least_root_ten,
    by decide, splitIntoChunks_ten⟩

/-- C7. Let `S` have length `n < 2 ^ 52`, let `c` be the least natural number
with `c * c ≥ n` and `k = max 4 c`.  The float64 computation
`int(math.Ceil(math.Sqrt(float64(n))))` gives `c`; `splitIntoChunks S` returns
`k` chunks minus the zero-size ones; a zero-size chunk is computed exactly
when `n < k`; so the number of chunks is `min n k`, which is `k` for `n ≥ 4`,
and for `n = 1, 2, 3` there are `n` chunks of one element each. -/
theorem splitIntoChunks_count (S : List Int) (c : Nat) (hn : S.length < 2 ^ 52)
    (hc : S.length ≤ c * c) (hmin : ∀ d, S.length ≤ d * d → c ≤ d) :
    ceilSqrtFloat64 S.length = c ∧
    ∃ chunks, splitIntoChunks S = .ok chunks ∧
      chunks.length = max 4 c - ((List.range (max 4 c)).filter (fun i =>
        decide ((if i < S.length % max 4 c then S.length / max 4 c + 1
          else S.length / max 4 c) = 0))).length ∧
      ((∃ i, i < max 4 c ∧ (if i < S.length % max 4 c then S.length / max 4 c + 1
          else S.length / max 4 c) = 0) ↔ S.length < max 4 c) ∧
      chunks.length = min S.length (max 4 c) ∧
      (4 ≤ S.length → chunks.length = max 4 c) ∧
      (S.length = 1 ∨ S.length = 2 ∨ S.length = 3 →
        chunks.length = S.length ∧ ∀ chunk ∈ chunks, chunk.length = 1) := by
  have hk := numChunksOf_exact S.length c hn hc hmin
  have hpos : 0 < max 4 c := by omega
  have htot := chunkOffset_total S.length (max 4 c) hpos
  have hsplit := splitIntoChunks_eq S
  rw [hk] at hsplit
  have hlen : (computedChunks S (S.length / max 4 c) (S.length % max 4 c)
      (max 4 c)).length = min S.length (max 4 c) := by
    rw [← count_nonzero_chunks S.length (max 4 c) hpos,
      ← computedChunks_lengths S _ _ _ (by omega), List.length_map]
  have hzero := count_zero_chunks S.length (max 4 c) hpos
  simp only [chunkSize] at hzero
  have hcn : c ≤ S.length := hmin S.length (Nat.le_mul_self _)
  refine ⟨ceilSqrtFloat64_exact S.length c hn hc hmin, _, hsplit, ?_, ?_, hlen, ?_, ?_⟩
  · rw [hzero, hlen]; omega
  · constructor
    · rintro ⟨i, _, hi⟩
      by_contra hcon
      have := (chunkSize_ne_zero_iff S.length (max 4 c) i hpos).mpr (Or.inl (by omega))
      exact this hi
    · intro hlt
      refine ⟨S.length, hlt, ?_⟩
      by_contra hcon
      rcases (chunkSize_ne_zero_iff S.length (max 4 c) S.length hpos).mp hcon with h | h <;>
        omega
  · intro h4
    rw [hlen]; omega
  · intro hsmall
    refine ⟨by rw [hlen]; omega, fun chunk hmem => ?_⟩
    have hbase : S.length / max 4 c = 0 := Nat.div_eq_of_lt (by omega)
    have := chunk_length_cases S _ _ _ (by omega) chunk hmem
    omega

/-- A sequence of two elements is cut into two chunks of one element each. -/
theorem splitIntoChunks_count_witness :
    ([7, -1] : List Int).length < 2 ^ 52 ∧ ([7, -1] : List Int).length ≤ 2 * 2 ∧
      (ceilSqrtFloat64 ([7, -1] : List Int).length = 2 ∧
        ∃ chunks, splitIntoChunks [7, -1] = .ok chunks ∧
          chunks.length = max 4 2 - ((List.range (max 4 2)).filter (fun i =>
            decide ((if i < ([7, -1] : List Int).length % max 4 2
              then ([7, -1] : List Int).length / max 4 2 + 1
              else ([7, -1] : List Int).length / max 4 2) = 0))).length ∧
          ((∃ i, i < max 4 2 ∧ (if i < ([7, -1] : List Int).length % max 4 2
              then ([7, -1] : List Int).length / max 4 2 + 1
              else ([7, -1] : List Int).length / max 4 2) = 0) ↔
            ([7, -1] : List Int).length < max 4 2) ∧
          chunks.length = min ([7, -1] : List Int).length (max 4 2) ∧
          (4 ≤ ([7, -1] : List Int).length → chunks.length = max 4 2) ∧
          (([7, -1] : List Int).length = 1 ∨ ([7, -1] : List Int).length = 2 ∨
              ([7, -1] : List Int).length = 3 →
            chunks.length = ([7, -1] : List Int).length ∧
              ∀ chunk ∈ chunks, chunk.length = 1)) ∧
      splitIntoChunks [7, -1] = .ok [[7], [-1]] :=
  ⟨by decide, by decide,
    splitIntoChunks_count [7, -1] 2 (by decide) (by decide) least_root_two,
    splitIntoChunks_two⟩

/-- C8. No chunk returned by `splitIntoChunks` is empty, whatever the
sequence; for the empty sequence it returns no chunk at all, and
`process [] = []`. -/
theorem splitIntoChunks_nonempty (S : List Int) :
    (∃ chunks, splitIntoChunks S = .ok chunks ∧ ∀ chunk ∈ chunks, chunk ≠ []) ∧
      splitIntoChunks [] = .ok [] ∧ process [] = .ok [] := by
  have hk : 0 < numChunksOf S.length := by have := numChunksOf_ge S.length; omega
  have htot := chunkOffset_total S.length (numChunksOf S.length) hk
  refine ⟨⟨_, splitIntoChunks_eq S, fun chunk hmem hnil => ?_⟩, splitIntoChunks_nil,
    process_nil⟩
  have := (chunk_length_cases S _ _ _ (by omega) chunk hmem).1
  rw [hnil] at this
  exact this rfl

/-- C9. Applied to exactly one chunk, sorted or not, `mergeSortedChunks`
returns that chunk unchanged; applied to no chunk it returns the empty
sequence. -/
theorem mergeSortedChunks_degenerate :
    (∀ chunk : List Int, mergeSortedChunks [chunk] = .ok chunk) ∧
      mergeSortedChunks [] = .ok [] :=
  ⟨fun _ => rfl, rfl⟩

/-- C10. `sortChunksConcurrently` returns as many chunks as it is given, and
the chunk it returns at position `i` has the length of the `i`-th input chunk,
is a permutation of it, and is in non-decreasing order. -/
theorem sortChunksConcurrently_spec (chunks : List (List Int)) :
    (sortChunksConcurrently chunks).length = chunks.length ∧
      ∀ (i : Nat) (chunk : List Int), chunks[i]? = some chunk →
        ∃ sorted, (sortChunksConcurrently chunks)[i]? = some sorted ∧
          sorted.length = chunk.length ∧ sorted.Perm chunk ∧ sorted.Sorted (· ≤ ·) := by
  refine ⟨by simp [sortChunksConcurrently], fun i chunk h => ?_⟩
  refine ⟨sortInts chunk, ?_, (sortInts_perm chunk).length_eq, sortInts_perm chunk,
    sortInts_sorted chunk⟩
  simp [sortChunksConcurrently, List.getElem?_map, h]

/-! ## Lemmas: the iterations of the merge loop -/

/-- One iteration of the outer loop, with the cursor bounds made explicit. -/
theorem mergeStep_advance (chunks : List (List Int)) (st : MergeState)
    (hlen : st.indices.length = chunks.length) :
    (mergeStep chunks st = .ok none ∧
      ∀ i, i < chunks.length → cursorVal chunks st.indices i = none) ∨
    (∃ (j cursor : Nat) (v : Int) (chunk : List Int), chunks[j]? = some chunk ∧
      st.indices[j]? = some cursor ∧ cursor < chunk.length ∧
      cursorVal chunks st.indices j = some v ∧
      (∀ (i : Nat) (w : Int), cursorVal chunks st.indices i = some w →
        v ≤ w ∧ (i < j → v < w)) ∧
      mergeStep chunks st =
        .ok (some (MergeState.mk (st.indices.set j (cursor + 1)) (st.result ++ [v]))) ∧
      (remaining chunks st.indices)[j]? = some (v :: chunk.drop (cursor + 1)) ∧
      remaining chunks (st.indices.set j (cursor + 1)) =
        (remaining chunks st.indices).set j (chunk.drop (cursor + 1))) := by
  obtain ⟨s, hs, hinv⟩ := scan_spec chunks st.indices hlen
  rcases hinv with ⟨_, h2, h3⟩ | ⟨_, j, hj, h2, h3, h4⟩
  · left
    exact ⟨by simp [mergeStep, hs, h2, bind, Except.bind, pure, Except.pure], h3⟩
  · right
    obtain ⟨chunk, cursor, hc, hi, hlt, hr⟩ :=
      remaining_of_cursorVal_some chunks st.indices j s.minVal h3
    refine ⟨j, cursor, s.minVal, chunk, hc, hi, hlt, h3, ?_, ?_, hr,
      remaining_set chunks st.indices j (cursor + 1) chunk hc⟩
    · intro i w hw
      obtain ⟨_, _, hc2, _, _, _⟩ := remaining_of_cursorVal_some chunks st.indices i w hw
      exact h4 i w (List.getElem?_eq_some_iff.mp hc2).1 hw
    · have hne : ¬ ((j : Int) = -1) := by omega
      simp [mergeStep, hs, h2, hne, index, hi, bind, Except.bind, pure, Except.pure]

theorem CursorsInBounds_start (chunks : List (List Int)) :
    CursorsInBounds chunks (mergeStart chunks).indices := by
  refine ⟨by simp [mergeStart], fun i cursor chunk hi _ => ?_⟩
  simp only [mergeStart, List.getElem?_replicate] at hi
  split_ifs at hi
  cases hi
  exact Nat.zero_le _

theorem CursorsInBounds_set (chunks : List (List Int)) (indices : List Nat)
    (j cursor : Nat) (chunk : List Int) (h : CursorsInBounds chunks indices)
    (hc : chunks[j]? = some chunk) (hlt : cursor < chunk.length) :
    CursorsInBounds chunks (indices.set j (cursor + 1)) := by
  refine ⟨by simp [h.1], fun i c ch hi hch => ?_⟩
  rw [List.getElem?_set] at hi
  split_ifs at hi with hji hjl
  · cases hi
    rw [← hji, hc] at hch
    cases hch
    omega
  · exact h.2 i c ch hi hch

theorem remaining_rest_length (R : List (List Int)) (j : Nat) (v : Int) (t : List Int)
    (h : R[j]? = some (v :: t)) :
    (R.set j t).flatten.length + 1 = R.flatten.length := by
  have := (flatten_set_perm R j v t h).length_eq
  simp only [List.length_cons] at this
  omega

/-- The loop, given more unrollings than there are elements left, goes through
exactly one state per element left and one more; consecutive states are one
select-and-append step apart, all cursors stay within bounds, the last state
has no element left, and its output is what `mergeLoop` returns. -/
theorem mergeTrace_spec (chunks : List (List Int)) : ∀ (fuel : Nat) (st : MergeState),
    CursorsInBounds chunks st.indices →
    (remaining chunks st.indices).flatten.length < fuel →
    ∃ tr fin, mergeTrace chunks fuel st = .ok tr ∧
      tr.length = (remaining chunks st.indices).flatten.length + 1 ∧
      tr[0]? = some st ∧
      (∀ (t : Nat) (s s' : MergeState), tr[t]? = some s → tr[t + 1]? = some s' →
        SelectsLeast chunks s s') ∧
      (∀ s ∈ tr, CursorsInBounds chunks s.indices) ∧
      tr.getLast? = some fin ∧ mergeStep chunks fin = .ok none ∧
      (∀ i, i < chunks.length → cursorVal chunks fin.indices i = none) ∧
      mergeLoop chunks fuel st = .ok fin.result := by
  intro fuel
  induction fuel with
  | zero => intro st _ h; exact absurd h (Nat.not_lt_zero _)
  | succ fuel ih =>
    intro st hb hfuel
    rcases mergeStep_advance chunks st hb.1 with ⟨hstep, hnone⟩ |
      ⟨j, cursor, v, chunk, hc, hi, hlt, hv, hmin, hstep, hrj, hrem⟩
    · have hnil : (remaining chunks st.indices).flatten = [] := by
        apply flatten_nil_of_getElem?
        intro i
        by_cases hi : i < chunks.length
        · exact remaining_of_cursorVal_none chunks st.indices i (hnone i hi)
        · left
          apply List.getElem?_eq_none
          rw [remaining_length chunks st.indices hb.1]
          omega
      refine ⟨[st], st, ?_, by simp [hnil], by simp, ?_, ?_, rfl, hstep, hnone, ?_⟩
      · simp [mergeTrace, hstep, bind, Except.bind, pure, Except.pure]
      · intro t s s' _ h2
        simp at h2
      · intro s hs
        rw [List.mem_singleton.mp hs]
        exact hb
      · simp [mergeLoop, hstep, bind, Except.bind, pure, Except.pure]
    · have hl := remaining_rest_length _ j v _ hrj
      have hb2 := CursorsInBounds_set chunks st.indices j cursor chunk hb hc hlt
      obtain ⟨tr, fin, htr, hlen, hhead, hsteps, hbounds, hlast, hfin, hnone, hloop⟩ :=
        ih (MergeState.mk (st.indices.set j (cursor + 1)) (st.result ++ [v])) hb2
          (by simp only []; rw [hrem]; omega)
      simp only [hrem] at hlen
      refine ⟨st :: tr, fin, ?_, ?_, by simp, ?_, ?_, ?_, hfin, hnone, ?_⟩
      · simp only [mergeTrace, hstep, bind, Except.bind, htr, pure, Except.pure]
      · simp only [List.length_cons, hlen]; omega
      · intro t s s' h1 h2
        cases t with
        | zero =>
          simp only [List.getElem?_cons_zero, Option.some.injEq] at h1
          simp only [List.getElem?_cons_succ] at h2
          rw [hhead] at h2
          cases h2
          subst h1
          exact ⟨j, cursor, v, hi, hv, hmin, rfl, rfl⟩
        | succ t =>
          simp only [List.getElem?_cons_succ] at h1 h2
          exact hsteps t s s' h1 h2
      · intro s hs
        rcases List.mem_cons.mp hs with h1 | h1
        · rw [h1]; exact hb
        · exact hbounds s h1
      · cases tr with
        | nil => simp at hlen
        | cons a tr => simpa [List.getLast?_cons_cons] using hlast
      · simp only [mergeLoop, hstep, bind, Except.bind]
        exact hloop

theorem cursors_at_end (chunks : List (List Int)) (indices : List Nat)
    (hb : CursorsInBounds chunks indices)
    (hnone : ∀ i, i < chunks.length → cursorVal chunks indices i = none) :
    indices = chunks.map List.length := by
  apply List.ext_getElem?
  intro n
  rw [List.getElem?_map]
  by_cases hn : n < chunks.length
  · have hn2 : n < indices.length := by rw [hb.1]; exact hn
    have e1 : chunks[n]? = some chunks[n] := List.getElem?_eq_getElem hn
    have e2 : indices[n]? = some indices[n] := List.getElem?_eq_getElem hn2
    have h1 := hb.2 n _ _ e2 e1
    have h2 := hnone n hn
    simp only [cursorVal, e1, e2] at h2
    have h3 := List.getElem?_eq_none_iff.mp h2
    rw [e1, e2]
    simp only [Option.map_some', Option.some.injEq]
    omega
  · rw [List.getElem?_eq_none (by rw [hb.1]; omega), List.getElem?_eq_none (by omega)]
    rfl

/-- The merge loop entered by `mergeSortedChunks`: its trace exists, has one
state per element and one more, and ends with every cursor at the end of its
chunk. -/
theorem mergeTrace_start (chunks : List (List Int)) :
    ∃ tr fin, mergeTrace chunks (totalLength chunks + 1) (mergeStart chunks) = .ok tr ∧
      tr.length = chunks.flatten.length + 1 ∧
      (∀ (t : Nat) (s s' : MergeState), tr[t]? = some s → tr[t + 1]? = some s' →
        SelectsLeast chunks s s') ∧
      (∀ s ∈ tr, CursorsInBounds chunks s.indices) ∧
      tr.getLast? = some fin ∧ mergeStep chunks fin = .ok none ∧
      fin.indices = chunks.map List.length ∧
      mergeLoop chunks (totalLength chunks + 1) (mergeStart chunks) = .ok fin.result := by
  have hstart : remaining chunks (mergeStart chunks).indices = chunks := remaining_start chunks
  obtain ⟨tr, fin, htr, hlen, _, hsteps, hbounds, hlast, hfin, hnone, hloop⟩ :=
    mergeTrace_spec chunks (totalLength chunks + 1) (mergeStart chunks)
      (CursorsInBounds_start chunks) (by rw [hstart, totalLength_eq]; omega)
  rw [hstart] at hlen
  refine ⟨tr, fin, htr, hlen, hsteps, hbounds, hlast, hfin, ?_, hloop⟩
  exact cursors_at_end chunks fin.indices
    (hbounds fin (List.mem_of_getLast?_eq_some hlast)) hnone

set_option maxRecDepth 100000 in
theorem chunks_twenty_ones :
    (splitIntoChunks (List.replicate 20 1)).map sortChunksConcurrently =
      .ok (List.replicate 5 (List.replicate 4 1)) := by decide

/-! ## Lemmas: the merge with the other tie-break -/

theorem scanStepLe_eq (chunks : List (List Int)) (indices : List Nat) (s : Scan) (i : Nat)
    (hlen : indices.length = chunks.length) (hi : i < chunks.length) :
    scanStepLe chunks indices s i = .ok
      (match cursorVal chunks indices i with
       | none => s
       | some v => if s.first = true ∨ v ≤ s.minVal then
           { minIdx := (i : Int), minVal := v, first := false } else s) := by
  have hi2 : i < indices.length := by omega
  have e1 : chunks[i]? = some chunks[i] := List.getElem?_eq_getElem hi
  have e2 : indices[i]? = some indices[i] := List.getElem?_eq_getElem hi2
  simp only [scanStepLe, index, cursorVal, e1, e2, bind, Except.bind, pure, Except.pure]
  by_cases hcur : indices[i] < chunks[i].length
  · have e3 : chunks[i][indices[i]]? = some (chunks[i][indices[i]]) :=
      List.getElem?_eq_getElem hcur
    have hn : ¬ chunks[i].length ≤ indices[i] := by omega
    simp only [e3, hn, if_false, ge_iff_le, Bool.or_eq_true, decide_eq_true_eq]
    split_ifs <;> rfl
  · have e3 : chunks[i][indices[i]]? = none := List.getElem?_eq_none (by omega)
    simp [e3, hcur]

theorem ScanInvLe_step (chunks : List (List Int)) (indices : List Nat) (m : Nat) (s : Scan)
    (h : ScanInvLe chunks indices m s) :
    ScanInvLe chunks indices (m + 1)
      (match cursorVal chunks indices m with
       | none => s
       | some v => if s.first = true ∨ v ≤ s.minVal then
           { minIdx := (m : Int), minVal := v, first := false } else s) := by
  cases hcv : cursorVal chunks indices m with
  | none =>
    simp only []
    rcases h with ⟨h1, h2, h3⟩ | ⟨h1, j, hj, h2, h3, h4⟩
    · refine Or.inl ⟨h1, h2, fun i hi => ?_⟩
      rcases Nat.lt_succ_iff_lt_or_eq.mp hi with hlt | heq
      · exact h3 i hlt
      · rw [heq]; exact hcv
    · refine Or.inr ⟨h1, j, by omega, h2, h3, fun i v hi hv => ?_⟩
      rcases Nat.lt_succ_iff_lt_or_eq.mp hi with hlt | heq
      · exact h4 i v hlt hv
      · rw [heq, hcv] at hv; cases hv
  | some v =>
    simp only []
    rcases h with ⟨h1, _, h3⟩ | ⟨h1, j, hj, h2, h3, h4⟩
    · rw [if_pos (Or.inl h1)]
      refine Or.inr ⟨rfl, m, by omega, rfl, hcv, fun i w hi hw => ?_⟩
      rcases Nat.lt_succ_iff_lt_or_eq.mp hi with hlt | heq
      · rw [h3 i hlt] at hw; cases hw
      · rw [heq, hcv] at hw
        cases hw
        exact ⟨le_refl _, fun hlt => absurd hlt (by omega)⟩
    · by_cases hle : v ≤ s.minVal
      · rw [if_pos (Or.inr hle)]
        refine Or.inr ⟨rfl, m, by omega, rfl, hcv, fun i w hi hw => ?_⟩
        rcases Nat.lt_succ_iff_lt_or_eq.mp hi with hi2 | heq
        · have := (h4 i w hi2 hw).1
          exact ⟨by simp only []; omega, fun hmi => absurd hmi (by omega)⟩
        · rw [heq, hcv] at hw
          cases hw
          exact ⟨le_refl _, fun h => absurd h (by omega)⟩
      · have hcond : ¬ (s.first = true ∨ v ≤ s.minVal) := by
          rintro (hf | hv)
          · rw [h1] at hf; cases hf
          · exact hle hv
        rw [if_neg hcond]
        refine Or.inr ⟨h1, j, by omega, h2, h3, fun i w hi hw => ?_⟩
        rcases Nat.lt_succ_iff_lt_or_eq.mp hi with hi2 | heq
        · exact h4 i w hi2 hw
        · rw [heq, hcv] at hw
          cases hw
          exact ⟨by omega, fun _ => by omega⟩

theorem scanLe_upto (chunks : List (List Int)) (indices : List Nat)
    (hlen : indices.length = chunks.length) (m : Nat) (hm : m ≤ chunks.length) :
    ∃ s, (List.range m).foldlM (scanStepLe chunks indices)
        { minIdx := -1, minVal := 0, first := true } = .ok s ∧
      ScanInvLe chunks indices m s := by
  induction m with
  | zero => exact ⟨_, rfl, Or.inl ⟨rfl, rfl, fun _ h => absurd h (Nat.not_lt_zero _)⟩⟩
  | succ m ih =>
    obtain ⟨s, hs, hinv⟩ := ih (by omega)
    refine ⟨_, ?_, ScanInvLe_step chunks indices m s hinv⟩
    rw [List.range_succ, List.foldlM_append, hs]
    simp only [bind, Except.bind, List.foldlM, pure, Except.pure]
    rw [scanStepLe_eq chunks indices s m hlen (by omega)]

/-- One iteration of the outer loop with the comparison `val <= minVal`:
either nothing is left and the loop breaks, or the last chunk with a least
cursor element is advanced and that element is appended. -/
theorem mergeStepLe_spec (chunks : List (List Int)) (st : MergeState)
    (hlen : st.indices.length = chunks.length) :
    (mergeStepLe chunks st = .ok none ∧ (remaining chunks st.indices).flatten = []) ∨
    (∃ (j : Nat) (v : Int) (t : List Int) (cursor : Nat), j < chunks.length ∧
      st.indices[j]? = some cursor ∧
      (remaining chunks st.indices)[j]? = some (v :: t) ∧
      (∀ (i : Nat) (w : Int), cursorVal chunks st.indices i = some w →
        v ≤ w ∧ (j < i → v < w)) ∧
      mergeStepLe chunks st =
        .ok (some (MergeState.mk (st.indices.set j (cursor + 1)) (st.result ++ [v]))) ∧
      remaining chunks (st.indices.set j (cursor + 1)) =
        (remaining chunks st.indices).set j t) := by
  obtain ⟨s, hs, hinv⟩ := scanLe_upto chunks st.indices hlen chunks.length (Nat.le_refl _)
  have hs2 : scanLe chunks st.indices = .ok s := hs
  rcases hinv with ⟨_, h2, h3⟩ | ⟨_, j, hj, h2, h3, h4⟩
  · left
    constructor
    · simp [mergeStepLe, hs2, h2, bind, Except.bind, pure, Except.pure]
    · apply flatten_nil_of_getElem?
      intro i
      by_cases hi : i < chunks.length
      · exact remaining_of_cursorVal_none chunks st.indices i (h3 i hi)
      · left
        apply List.getElem?_eq_none
        rw [remaining_length chunks st.indices hlen]
        omega
  · right
    obtain ⟨chunk, cursor, hc, hi, _, hr⟩ :=
      remaining_of_cursorVal_some chunks st.indices j s.minVal h3
    refine ⟨j, s.minVal, chunk.drop (cursor + 1), cursor, hj, hi, hr, ?_, ?_, ?_⟩
    · intro i w hw
      obtain ⟨_, _, hc2, _, _, _⟩ := remaining_of_cursorVal_some chunks st.indices i w hw
      exact h4 i w (List.getElem?_eq_some_iff.mp hc2).1 hw
    · have hne : ¬ ((j : Int) = -1) := by omega
      simp [mergeStepLe, hs2, h2, hne, index, hi, bind, Except.bind, pure, Except.pure]
    · exact remaining_set chunks st.indices j (cursor + 1) chunk hc

/-- The outer loop with the comparison `val <= minVal` returns a permutation
of the output so far followed by the elements left, sorted under the same
conditions as for `mergeLoop`. -/
theorem mergeLoopLe_spec (chunks : List (List Int)) : ∀ (fuel : Nat) (st : MergeState),
    st.indices.length = chunks.length →
    (remaining chunks st.indices).flatten.length < fuel →
    ∃ out, mergeLoopLe chunks fuel st = .ok out ∧
      out.Perm (st.result ++ (remaining chunks st.indices).flatten) ∧
      ((∀ r ∈ remaining chunks st.indices, r.Sorted (· ≤ ·)) →
        st.result.Sorted (· ≤ ·) →
        (∀ x ∈ st.result, ∀ y ∈ (remaining chunks st.indices).flatten, x ≤ y) →
        out.Sorted (· ≤ ·)) := by
  intro fuel
  induction fuel with
  | zero => intro st _ h; exact absurd h (Nat.not_lt_zero _)
  | succ fuel ih =>
    intro st hlen hfuel
    rcases mergeStepLe_spec chunks st hlen with ⟨hstep, hnil⟩ |
      ⟨j, v, t, cursor, _, _, hrj, hmin, hstep, hrem⟩
    · refine ⟨st.result, ?_, ?_, fun _ h _ => h⟩
      · simp [mergeLoopLe, hstep, bind, Except.bind, pure, Except.pure]
      · rw [hnil, List.append_nil]
    · have hperm := flatten_set_perm (remaining chunks st.indices) j v t hrj
      have hl := hperm.length_eq
      simp only [List.length_cons] at hl
      obtain ⟨out, hout, hp, hs⟩ := ih (MergeState.mk (st.indices.set j (cursor + 1))
        (st.result ++ [v])) (by simp [hlen]) (by simp only []; rw [hrem]; omega)
      simp only [hrem] at hp hs
      refine ⟨out, ?_, ?_, ?_⟩
      · simp only [mergeLoopLe, hstep, bind, Except.bind]
        exact hout
      · refine hp.trans ?_
        rw [List.append_assoc]
        exact (List.Perm.append_left st.result hperm.symm)
      · intro hsorted hres hle
        have hv : ∀ y ∈ (remaining chunks st.indices).flatten, v ≤ y :=
          le_of_mem_remaining chunks st.indices v (fun i w hw => (hmin i w hw).1) hsorted
        have hvmem : v ∈ (remaining chunks st.indices).flatten :=
          hperm.symm.subset (List.mem_cons_self _ _)
        have hsub : ∀ y ∈ ((remaining chunks st.indices).set j t).flatten,
            y ∈ (remaining chunks st.indices).flatten :=
          fun y hy => hperm.symm.subset (List.mem_cons_of_mem _ hy)
        apply hs
        · intro r hr
          rcases List.mem_or_eq_of_mem_set hr with hmem | heq
          · exact hsorted r hmem
          · rw [heq]
            exact (hsorted _ (List.mem_iff_getElem?.mpr ⟨j, hrj⟩)).tail
        · rw [List.Sorted, List.pairwise_append]
          exact ⟨hres, List.pairwise_singleton _ _, fun x hx y hy => by
            rw [List.mem_singleton.mp hy]; exact hle x hx v hvmem⟩
        · intro x hx y hy
          rcases List.mem_append.mp hx with h1 | h1
          · exact hle x h1 y (hsub y hy)
          · rw [List.mem_singleton.mp h1]; exact hv y (hsub y hy)

theorem mergeSortedChunksLe_spec (chunks : List (List Int)) :
    ∃ out, mergeSortedChunksLe chunks = .ok out ∧ out.Perm chunks.flatten ∧
      ((∀ chunk ∈ chunks, chunk.Sorted (· ≤ ·)) → out.Sorted (· ≤ ·)) := by
  match chunks with
  | [] => exact ⟨[], rfl, List.Perm.refl _, fun _ => List.sorted_nil⟩
  | [chunk] =>
    refine ⟨chunk, rfl, by simp, fun h => h chunk (List.mem_singleton_self _)⟩
  | a :: b :: rest =>
    obtain ⟨out, hout, hp, hs⟩ := mergeLoopLe_spec (a :: b :: rest)
      (totalLength (a :: b :: rest) + 1)
      (MergeState.mk (List.replicate (a :: b :: rest).length 0) [])
      (by simp) (by simp only []; rw [remaining_start, totalLength_eq]; omega)
    simp only [remaining_start, List.nil_append] at hp hs
    refine ⟨out, ?_, hp, fun h => hs h List.sorted_nil (fun x hx => by cases hx)⟩
    simp only [mergeSortedChunksLe, List.length_cons]
    rw [if_neg (by omega), if_neg (by omega)]
    exact hout

set_option maxRecDepth 100000 in
theorem tie_break_example :
    mergeSortedChunks [[1, 2], [1, 3], [2]] = .ok [1, 1, 2, 2, 3] ∧
      mergeSortedChunksLe [[1, 2], [1, 3], [2]] = .ok [1, 1, 2, 2, 3] := by decide

set_option maxRecDepth 100000 in
/-- On chunks that are not sorted the two tie-breaks may give different
outputs, so the hypothesis of the comparison below is needed. -/
theorem tie_break_unsorted :
    mergeSortedChunks [[1, 0], [1, 5]] = .ok [1, 0, 1, 5] ∧
      mergeSortedChunksLe [[1, 0], [1, 5]] = .ok [1, 1, 0, 5] := by decide

/-! ## Lemmas: the goroutines of `sortChunksConcurrently` -/

theorem pendingCount_set_same (phases : List Phase) : ∀ (i : Nat) (p q : Phase),
    phases[i]? = some p → p ≠ .done → q ≠ .done →
    pendingCount (phases.set i q) = pendingCount phases := by
  induction phases with
  | nil => intro i p q h; simp at h
  | cons a l ih =>
    intro i p q h hp hq
    cases i with
    | zero =>
      simp only [List.getElem?_cons_zero, Option.some.injEq] at h
      subst h
      simp [pendingCount, List.countP_cons, hp, hq]
    | succ i =>
      simp only [List.getElem?_cons_succ] at h
      have := ih i p q h hp hq
      simp only [pendingCount] at this
      simp only [pendingCount, List.set_cons_succ, List.countP_cons, this]

theorem pendingCount_set_done (phases : List Phase) : ∀ (i : Nat) (p : Phase),
    phases[i]? = some p → p ≠ .done →
    pendingCount (phases.set i .done) + 1 = pendingCount phases := by
  induction phases with
  | nil => intro i p h; simp at h
  | cons a l ih =>
    intro i p h hp
    cases i with
    | zero =>
      simp only [List.getElem?_cons_zero, Option.some.injEq] at h
      subst h
      simp [pendingCount, List.countP_cons, hp]
    | succ i =>
      simp only [List.getElem?_cons_succ] at h
      have := ih i p h hp
      simp only [pendingCount] at this
      simp only [pendingCount, List.set_cons_succ, List.countP_cons]
      omega

theorem pendingCount_zero (phases : List Phase) (h : pendingCount phases = 0) :
    ∀ (k : Nat) (p : Phase), phases[k]? = some p → p = .done := by
  intro k p hk
  have hmem : p ∈ phases := List.mem_iff_getElem?.mpr ⟨k, hk⟩
  simp only [pendingCount, List.countP_eq_zero] at h
  have := h p hmem
  simpa using this

theorem pendingCount_pos (phases : List Phase) (h : pendingCount phases ≠ 0) :
    ∃ (k : Nat) (p : Phase), phases[k]? = some p ∧ p ≠ .done := by
  simp only [pendingCount, ne_eq, List.countP_eq_zero, not_forall] at h
  obtain ⟨p, hmem, hp⟩ := h
  obtain ⟨k, hk⟩ := List.mem_iff_getElem?.mp hmem
  exact ⟨k, p, hk, by simpa using hp⟩

theorem stepsLeft_set (phases : List Phase) : ∀ (i : Nat) (p q : Phase),
    phases[i]? = some p → stepsLeft q + 1 = stepsLeft p →
    ((phases.set i q).map stepsLeft).sum + 1 = (phases.map stepsLeft).sum := by
  induction phases with
  | nil => intro i p q h; simp at h
  | cons a l ih =>
    intro i p q h hw
    cases i with
    | zero =>
      simp only [List.getElem?_cons_zero, Option.some.injEq] at h
      subst h
      simp only [List.set_cons_zero, List.map_cons, List.sum_cons]
      omega
    | succ i =>
      simp only [List.getElem?_cons_succ] at h
      have := ih i p q h hw
      simp only [List.set_cons_succ, List.map_cons, List.sum_cons]
      omega

theorem ConcInv_init (original : List (List Int)) : ConcInv original (Conc.init original) := by
  refine ⟨by simp [Conc.init], rfl, ?_, ?_, ?_⟩
  · simp [Conc.init, pendingCount, List.countP_replicate]
  · intro k p c hp hc
    simp only [Conc.init, List.getElem?_replicate] at hp
    split_ifs at hp
    cases hp
    simpa [Conc.init, chunkAt] using hc
  · refine ⟨Nat.zero_le _, fun k _ hk => ?_, fun k hk => absurd hk (Nat.not_lt_zero _)⟩
    simp [Conc.init, List.getElem?_replicate, hk]

theorem stepsLeft_init (original : List (List Int)) :
    (Conc.init original).stepsLeft = 4 * original.length + 1 := by
  simp [Conc.stepsLeft, Conc.init, stepsLeft, Nat.mul_comm]

theorem chunks_inv_set (original chunks : List (List Int)) (phases : List Phase)
    (i : Nat) (p q : Phase)
    (hch : ∀ (k : Nat) (p : Phase) (c : List Int), phases[k]? = some p →
      original[k]? = some c → chunks[k]? = some (chunkAt p c))
    (hi : phases[i]? = some p) (hq : ∀ c, chunkAt q c = chunkAt p c) :
    ∀ (k : Nat) (r : Phase) (c : List Int), (phases.set i q)[k]? = some r →
      original[k]? = some c → chunks[k]? = some (chunkAt r c) := by
  intro k r c hk hc
  rw [List.getElem?_set] at hk
  split_ifs at hk with hik
  · cases hk
    rw [hq c]
    exact hch k p c (hik ▸ hi) hc
  · exact hch k r c hk hc

theorem main_inv_set (n : Nat) (main : MainPc) (phases : List Phase)
    (i : Nat) (p q : Phase) (hi : phases[i]? = some p) (hp : p ≠ .notStarted)
    (hpd : p ≠ .done) (hq : q ≠ .notStarted) (h : MainInv n main phases) :
    MainInv n main (phases.set i q) := by
  cases main with
  | loop j =>
    obtain ⟨h1, h2, h3⟩ := h
    refine ⟨h1, fun k hjk hk => ?_, fun k hk => ?_⟩
    · have := h2 k hjk hk
      rw [List.getElem?_set]
      split_ifs with hik
      · rw [← hik, hi] at this
        cases this
        exact absurd rfl hp
      · rw [← hik, hi] at this
        cases this
        exact absurd rfl hp
      · exact this
    · rw [List.getElem?_set]
      split_ifs with hik
      · intro hcon
        cases hcon
        exact hq rfl
      · intro hcon; cases hcon
      · exact h3 k hk
  | returned =>
    exact absurd (pendingCount_zero phases h i p hi) hpd

/-- Every step keeps the invariant and uses up one of the steps left. -/
theorem ConcInv_step (original : List (List Int)) (s s' : Conc) (e : Event)
    (h : ConcInv original s) (hstep : s.step e = some s') :
    ConcInv original s' ∧ s'.stepsLeft + 1 = s.stepsLeft := by
  obtain ⟨hpl, hcl, hcount, hch, hmain⟩ := h
  cases e with
  | spawn =>
    simp only [Conc.step] at hstep
    cases hm : s.main with
    | returned => rw [hm] at hstep; cases hstep
    | loop i =>
      rw [hm] at hstep hmain
      simp only at hstep
      split_ifs at hstep with hi
      cases hstep
      obtain ⟨_, h2, h3⟩ := hmain
      have hns : s.phases[i]? = some .notStarted := h2 i (Nat.le_refl _) (by omega)
      refine ⟨⟨by simp [hpl], hcl, ?_, ?_, ?_⟩, ?_⟩
      · simp only []
        rw [pendingCount_set_same s.phases i .notStarted .ready hns (by decide) (by decide)]
        exact hcount
      · exact chunks_inv_set original s.chunks s.phases i .notStarted .ready hch hns
          (fun _ => rfl)
      · refine ⟨by omega, fun k hik hk => ?_, fun k hk => ?_⟩
        · simp only []
          rw [List.getElem?_set, if_neg (by omega)]
          exact h2 k (by omega) hk
        · simp only []
          rw [List.getElem?_set]
          split_ifs with hik
          · intro hcon; cases hcon
          · intro hcon; cases hcon
          · exact h3 k (by omega)
      · have := stepsLeft_set s.phases i .notStarted .ready hns rfl
        simp only [Conc.stepsLeft, hm]
        simp only [reduceCtorEq, if_false]
        omega
  | begin i =>
    simp only [Conc.step] at hstep
    split_ifs at hstep with hi
    cases hstep
    refine ⟨⟨by simp [hpl], hcl, ?_, ?_, ?_⟩, ?_⟩
    · simp only []
      rw [pendingCount_set_same s.phases i .ready .sorting hi (by decide) (by decide)]
      exact hcount
    · exact chunks_inv_set original s.chunks s.phases i .ready .sorting hch hi (fun _ => rfl)
    · exact main_inv_set original.length s.main s.phases i .ready .sorting hi (by decide)
        (by decide) (by decide) hmain
    · have := stepsLeft_set s.phases i .ready .sorting hi rfl
      simp only [Conc.stepsLeft]
      omega
  | finish i =>
    simp only [Conc.step] at hstep
    split_ifs at hstep with hi
    cases hc : s.chunks[i]? with
    | none => rw [hc] at hstep; cases hstep
    | some chunk =>
      rw [hc] at hstep
      cases hstep
      have hil : i < original.length := by
        rw [← hpl]; exact (List.getElem?_eq_some_iff.mp hi).1
      have ho : original[i]? = some original[i] := List.getElem?_eq_getElem hil
      have hchunk : chunk = original[i] := by
        have := hch i .sorting original[i] hi ho
        rw [hc] at this
        simpa [chunkAt] using this
      refine ⟨⟨by simp [hpl], by simp [hcl], ?_, ?_, ?_⟩, ?_⟩
      · simp only []
        rw [pendingCount_set_same s.phases i .sorting .sorted hi (by decide) (by decide)]
        exact hcount
      · intro k r c hk hoc
        simp only [] at hk ⊢
        rw [List.getElem?_set] at hk ⊢
        split_ifs at hk ⊢ with hik h1 h2
        · cases hk
          rw [← hik, ho] at hoc
          cases hoc
          rw [hchunk]
          rfl
        · omega
        · exact hch k r c hk hoc
      · exact main_inv_set original.length s.main s.phases i .sorting .sorted hi (by decide)
          (by decide) (by decide) hmain
      · have := stepsLeft_set s.phases i .sorting .sorted hi rfl
        simp only [Conc.stepsLeft]
        omega
  | done i =>
    simp only [Conc.step] at hstep
    split_ifs at hstep with hi
    cases hstep
    have hdec := pendingCount_set_done s.phases i .sorted hi (by decide)
    refine ⟨⟨by simp [hpl], hcl, ?_, ?_, ?_⟩, ?_⟩
    · simp only []
      rw [hcount]
      omega
    · exact chunks_inv_set original s.chunks s.phases i .sorted .done hch hi (fun _ => rfl)
    · exact main_inv_set original.length s.main s.phases i .sorted .done hi (by decide)
        (by decide) (by decide) hmain
    · have := stepsLeft_set s.phases i .sorted .done hi rfl
      simp only [Conc.stepsLeft]
      omega
  | ret =>
    simp only [Conc.step] at hstep
    split_ifs at hstep with hc
    cases hstep
    obtain ⟨hm, h0⟩ := hc
    refine ⟨⟨hpl, hcl, hcount, hch, ?_⟩, ?_⟩
    · simp only [MainInv]
      rw [hcount] at h0
      exact_mod_cast h0
    · simp only [Conc.stepsLeft, hm]
      simp

/-- Every state reached by a schedule satisfies the invariant, and the
schedule has used up as many of the steps left as it is long. -/
theorem ConcInv_run (original : List (List Int)) : ∀ (schedule : List Event) (s s' : Conc),
    ConcInv original s → s.run schedule = some s' →
    ConcInv original s' ∧ s'.stepsLeft + schedule.length = s.stepsLeft := by
  intro schedule
  induction schedule with
  | nil =>
    intro s s' h hrun
    simp only [Conc.run, Option.some.injEq] at hrun
    subst hrun
    exact ⟨h, rfl⟩
  | cons e es ih =>
    intro s s' h hrun
    simp only [Conc.run] at hrun
    cases hstep : s.step e with
    | none => rw [hstep] at hrun; cases hrun
    | some s1 =>
      rw [hstep] at hrun
      obtain ⟨h1, hm1⟩ := ConcInv_step original s s1 e h hstep
      obtain ⟨h2, hm2⟩ := ih s1 s' h1 hrun
      refine ⟨h2, ?_⟩
      simp only [List.length_cons]
      omega

/-- In a state that satisfies the invariant, `wg.Wait()` can return only when
every goroutine has run `wg.Done()`, and then every chunk is sorted. -/
theorem ConcInv_all_done (original : List (List Int)) (s : Conc) (h : ConcInv original s)
    (h0 : s.counter = 0) :
    (∀ i, i < original.length → s.phases[i]? = some .done) ∧
      s.chunks = sortChunksConcurrently original := by
  obtain ⟨hpl, hcl, hcount, hch, _⟩ := h
  have hp0 : pendingCount s.phases = 0 := by
    rw [hcount] at h0
    exact_mod_cast h0
  have hdone : ∀ i, i < original.length → s.phases[i]? = some .done := by
    intro i hi
    have e : s.phases[i]? = some s.phases[i] := List.getElem?_eq_getElem (by omega)
    rw [e, pendingCount_zero s.phases hp0 i _ e]
  refine ⟨hdone, ?_⟩
  apply List.ext_getElem?
  intro k
  simp only [sortChunksConcurrently, List.getElem?_map]
  by_cases hk : k < original.length
  · have ho : original[k]? = some original[k] := List.getElem?_eq_getElem hk
    rw [hch k .done original[k] (hdone k hk) ho, ho]
    rfl
  · rw [List.getElem?_eq_none (by omega), List.getElem?_eq_none (by omega)]
    rfl

/-- In a state that satisfies the invariant and in which the caller has not
returned, some step can be taken. -/
theorem ConcInv_progress (original : List (List Int)) (s : Conc) (h : ConcInv original s)
    (hm : s.main ≠ .returned) : ∃ e s', s.step e = some s' := by
  suffices hsome : ∃ e, (s.step e).isSome = true by
    obtain ⟨e, he⟩ := hsome
    exact ⟨e, Option.isSome_iff_exists.mp he⟩
  obtain ⟨hpl, hcl, hcount, hch, hmain⟩ := h
  cases hmm : s.main with
  | returned => exact absurd hmm hm
  | loop i =>
    rw [hmm] at hmain
    obtain ⟨h1, _, h3⟩ := hmain
    by_cases hi : i < original.length
    · refine ⟨.spawn, ?_⟩
      simp only [Conc.step, hmm]
      rw [if_pos (by omega)]
      rfl
    · have hin : i = original.length := by omega
      by_cases hp0 : pendingCount s.phases = 0
      · refine ⟨.ret, ?_⟩
        simp only [Conc.step]
        rw [if_pos ⟨by rw [hmm, hcl, hin], by rw [hcount, hp0]; rfl⟩]
        rfl
      · obtain ⟨k, p, hk, hpd⟩ := pendingCount_pos s.phases hp0
        have hkl : k < original.length := by
          rw [← hpl]; exact (List.getElem?_eq_some_iff.mp hk).1
        have hns := h3 k (by omega)
        cases p with
        | notStarted => exact absurd hk hns
        | ready => exact ⟨.begin k, by simp only [Conc.step]; rw [if_pos hk]; rfl⟩
        | sorting =>
          have ho : original[k]? = some original[k] := List.getElem?_eq_getElem hkl
          have hc := hch k .sorting original[k] hk ho
          exact ⟨.finish k, by simp only [Conc.step]; rw [if_pos hk, hc]; rfl⟩
        | sorted => exact ⟨.done k, by simp only [Conc.step]; rw [if_pos hk]; rfl⟩
        | done => exact absurd rfl hpd

set_option maxRecDepth 100000 in
theorem run_two_goroutines :
    (Conc.init [[3, 1], [2, 0]]).run
        [.spawn, .begin 0, .spawn, .begin 1, .finish 1, .done 1, .finish 0, .done 0, .ret] =
      some ⟨.returned, 0, [.done, .done], [[1, 3], [0, 2]]⟩ := by decide

set_option maxRecDepth 100000 in
/-- While a goroutine has not finished, `wg.Wait()` cannot return. -/
theorem run_blocked :
    (Conc.init [[3, 1], [2, 0]]).run
        [.spawn, .begin 0, .spawn, .begin 1, .finish 1, .done 1, .finish 0, .ret] = none := by
  decide

/-! ## Lemmas: the text written is read back -/

theorem digitChar_facts (d : Nat) (h : d < 10) :
    isDigit (digitChar d) = true ∧ digitVal (digitChar d) = d ∧
      isSpace (digitChar d) = false ∧ (digitChar d).utf8Size = 1 ∧
      digitChar d ≠ '\n' ∧ digitChar d ≠ '\r' ∧ digitChar d ≠ '-' ∧ digitChar d ≠ '+' := by
  interval_cases d <;> decide

theorem natDigits_digits : ∀ (fuel n : Nat), ∀ c ∈ natDigits fuel n,
    ∃ d, d < 10 ∧ c = digitChar d := by
  intro fuel
  induction fuel with
  | zero => intro n c hc; simp [natDigits] at hc
  | succ fuel ih =>
    intro n c hc
    simp only [natDigits] at hc
    split_ifs at hc with hn
    · exact ⟨n, hn, List.mem_singleton.mp hc⟩
    · rcases List.mem_append.mp hc with h1 | h1
      · exact ih (n / 10) c h1
      · exact ⟨n % 10, Nat.mod_lt _ (by decide), List.mem_singleton.mp h1⟩

theorem natDigits_ne_nil (fuel n : Nat) : natDigits (fuel + 1) n ≠ [] := by
  simp only [natDigits]
  split_ifs <;> simp

theorem natDigits_length : ∀ (fuel n : Nat), (natDigits fuel n).length ≤ fuel := by
  intro fuel
  induction fuel with
  | zero => intro n; simp [natDigits]
  | succ fuel ih =>
    intro n
    simp only [natDigits]
    split_ifs
    · simp
    · have := ih (n / 10)
      simp only [List.length_append, List.length_singleton]
      omega

theorem digitsVal_append (digits : List Char) (c : Char) :
    digitsVal (digits ++ [c]) = 10 * digitsVal digits + digitVal c := by
  simp [digitsVal, List.foldl_append]

/-- The decimal digits of `n` have the value `n`. -/
theorem natDigits_val : ∀ (fuel n : Nat), n < 10 ^ fuel → digitsVal (natDigits fuel n) = n := by
  intro fuel
  induction fuel with
  | zero => intro n hn; simp at hn; simp [natDigits, digitsVal, hn]
  | succ fuel ih =>
    intro n hn
    simp only [natDigits]
    split_ifs with h10
    · simp [digitsVal, (digitChar_facts n h10).2.1]
    · have hdiv : n / 10 < 10 ^ fuel := by
        rw [Nat.pow_succ] at hn
        omega
      rw [digitsVal_append, ih (n / 10) hdiv,
        (digitChar_facts (n % 10) (Nat.mod_lt _ (by decide))).2.1]
      omega

/-- The characters of the text of an integer are a minus sign or decimal
digits. -/
theorem formatInt_chars (x : Int) : ∀ c ∈ formatInt x,
    isSpace c = false ∧ c.utf8Size = 1 ∧ c ≠ '\n' ∧ c ≠ '\r' := by
  intro c hc
  have hd : ∀ n, c ∈ natDigits 20 n →
      isSpace c = false ∧ c.utf8Size = 1 ∧ c ≠ '\n' ∧ c ≠ '\r' := by
    intro n hn
    obtain ⟨d, hd, rfl⟩ := natDigits_digits 20 n c hn
    have := digitChar_facts d hd
    exact ⟨this.2.2.1, this.2.2.2.1, this.2.2.2.2.1, this.2.2.2.2.2.1⟩
  simp only [formatInt] at hc
  split_ifs at hc
  · rcases List.mem_cons.mp hc with h1 | h1
    · rw [h1]; decide
    · exact hd _ h1
  · exact hd _ hc

theorem formatInt_ne_nil (x : Int) : formatInt x ≠ [] := by
  simp only [formatInt]
  split_ifs
  · simp
  · exact natDigits_ne_nil 19 _

theorem formatInt_length (x : Int) : (formatInt x).length ≤ 21 := by
  simp only [formatInt]
  split_ifs
  · have := natDigits_length 20 x.natAbs
    simp only [List.length_cons]
    omega
  · have := natDigits_length 20 x.toNat
    omega

theorem utf8Len_of_ascii (line : List Char) (h : ∀ c ∈ line, c.utf8Size = 1) :
    utf8Len line = line.length := by
  induction line with
  | nil => rfl
  | cons a l ih =>
    have h1 := h a (List.mem_cons_self _ _)
    have h2 := ih (fun c hc => h c (List.mem_cons_of_mem _ hc))
    simp only [utf8Len, List.map_cons, List.sum_cons, List.length_cons] at h2 ⊢
    omega

theorem dropWhile_of_none (p : Char → Bool) (l : List Char) (h : ∀ c ∈ l, p c = false) :
    l.dropWhile p = l := by
  cases l with
  | nil => rfl
  | cons a l =>
    have := h a (List.mem_cons_self _ _)
    exact List.dropWhile_cons_of_neg (by simp [this])

theorem trimSpace_of_none (text : List Char) (h : ∀ c ∈ text, isSpace c = false) :
    trimSpace text = text := by
  simp only [trimSpace]
  rw [dropWhile_of_none isSpace text h,
    dropWhile_of_none isSpace text.reverse (fun c hc => h c (List.mem_reverse.mp hc)),
    List.reverse_reverse]

theorem dropCR_of_none (line : List Char) (h : ∀ c ∈ line, c ≠ '\r') : dropCR line = line := by
  simp only [dropCR]
  rw [if_neg]
  intro hl
  exact h _ (List.mem_of_getLast?_eq_some hl) rfl

theorem takeWhile_natDigits (fuel n : Nat) :
    (natDigits fuel n).takeWhile isDigit = natDigits fuel n := by
  rw [List.takeWhile_eq_self_iff]
  intro c hc
  obtain ⟨d, hd, rfl⟩ := natDigits_digits fuel n c hc
  exact (digitChar_facts d hd).1

theorem natDigits_head (fuel n : Nat) :
    (natDigits fuel n).head? ≠ some '-' ∧ (natDigits fuel n).head? ≠ some '+' := by
  cases hl : natDigits fuel n with
  | nil => simp
  | cons a l =>
    have hmem : a ∈ natDigits fuel n := by rw [hl]; exact List.mem_cons_self _ _
    obtain ⟨d, hd, rfl⟩ := natDigits_digits fuel n a hmem
    have := digitChar_facts d hd
    simp only [List.head?_cons, ne_eq, Option.some.injEq]
    exact ⟨this.2.2.2.2.2.2.1, this.2.2.2.2.2.2.2⟩

/-- Scanning the text of a 64-bit integer with `%d` gives the integer back. -/
theorem sscanInt_formatInt (x : Int) (hlo : -(2 : Int) ^ 63 ≤ x) (hhi : x < (2 : Int) ^ 63) :
    sscanInt (formatInt x) = some x := by
  by_cases hneg : x < 0
  · have hm : x.natAbs < 10 ^ 20 := by
      have : (x.natAbs : Int) = -x := by omega
      norm_num at hlo ⊢
      omega
    have hval := natDigits_val 20 x.natAbs hm
    have hne := natDigits_ne_nil 19 x.natAbs
    have hx : -((x.natAbs : Nat) : Int) = x := by omega
    simp only [formatInt, if_pos hneg, sscanInt, List.head?_cons, List.tail_cons, true_or,
      if_true, takeWhile_natDigits, hval, hx]
    rw [if_neg hne, if_pos ⟨hlo, hhi⟩]
  · have hm : x.toNat < 10 ^ 20 := by
      have : (x.toNat : Int) = x := by omega
      norm_num at hhi ⊢
      omega
    have hval := natDigits_val 20 x.toNat hm
    have hne := natDigits_ne_nil 19 x.toNat
    have hhead := natDigits_head 20 x.toNat
    have hx : ((x.toNat : Nat) : Int) = x := by omega
    have hs : ¬ ((natDigits 20 x.toNat).head? = some '-' ∨
        (natDigits 20 x.toNat).head? = some '+') := by
      rintro (h | h)
      · exact hhead.1 h
      · exact hhead.2 h
    simp only [formatInt, if_neg hneg, sscanInt, if_neg hs, if_neg hhead.1,
      takeWhile_natDigits, hval, hx]
    rw [if_neg hne, if_pos ⟨hlo, hhi⟩]

/-- One line holding the text of a 64-bit integer is read as that integer. -/
theorem readLine_formatInt (st : List Int × Nat) (x : Int) (hlo : -(2 : Int) ^ 63 ≤ x)
    (hhi : x < (2 : Int) ^ 63) :
    readLine st (formatInt x) = .ok (st.1 ++ [x], st.2 + 1) := by
  have hchars := formatInt_chars x
  have hlen : utf8Len (formatInt x) = (formatInt x).length :=
    utf8Len_of_ascii _ (fun c hc => (hchars c hc).2.1)
  have hshort : ¬ utf8Len (formatInt x) > maxLineBytes := by
    have := formatInt_length x
    simp only [maxLineBytes]
    omega
  have hcr : dropCR (formatInt x) = formatInt x :=
    dropCR_of_none _ (fun c hc => (hchars c hc).2.2.2)
  have htrim : trimSpace (formatInt x) = formatInt x :=
    trimSpace_of_none _ (fun c hc => (hchars c hc).1)
  simp only [readLine, if_neg hshort, hcr, htrim, if_neg (formatInt_ne_nil x),
    sscanInt_formatInt x hlo hhi]

theorem splitLines_line (line : List Char) (h : ∀ c ∈ line, c ≠ '\n') :
    ∀ (rest current : List Char),
      splitLines (line ++ '\n' :: rest) current =
        (current.reverse ++ line) :: splitLines rest [] := by
  induction line with
  | nil => intro rest current; simp [splitLines]
  | cons a l ih =>
    intro rest current
    have ha : a ≠ '\n' := h a (List.mem_cons_self _ _)
    simp only [List.cons_append, splitLines, if_neg ha, List.append_eq]
    rw [ih (fun c hc => h c (List.mem_cons_of_mem _ hc))]
    simp

/-- The text written for a list of integers is cut back into the texts of the
integers. -/
theorem splitLines_fileText (numbers : List Int) :
    splitLines (fileText numbers) [] = numbers.map formatInt := by
  induction numbers with
  | nil => rfl
  | cons x l ih =>
    simp only [fileText, List.map_cons, List.flatten_cons, List.append_assoc,
      List.singleton_append] at ih ⊢
    rw [splitLines_line (formatInt x) (fun c hc => (formatInt_chars x c hc).2.2.1), ih]
    simp

theorem readLines_formatInt (numbers : List Int)
    (h : ∀ x ∈ numbers, -(2 : Int) ^ 63 ≤ x ∧ x < (2 : Int) ^ 63) :
    ∀ (st : List Int × Nat), (numbers.map formatInt).foldlM readLine st =
      .ok (st.1 ++ numbers, st.2 + numbers.length) := by
  induction numbers with
  | nil => intro st; simp [pure, Except.pure]
  | cons x l ih =>
    intro st
    have hx := h x (List.mem_cons_self _ _)
    simp only [List.map_cons, List.foldlM_cons, readLine_formatInt st x hx.1 hx.2, bind,
      Except.bind]
    rw [ih (fun y hy => h y (List.mem_cons_of_mem _ hy))]
    simp only [List.append_assoc, List.singleton_append, List.length_cons]
    congr 2
    omega

/-! ## Lemmas: the three modes -/

/-- In the model `processAndPrint` never stops with a fault. -/
theorem processAndPrint_no_fault (numbers : List Int) : (processAndPrint numbers).2 = none := by
  obtain ⟨out, hout, _⟩ := mergeSortedChunks_spec (sortChunksConcurrently
    (computedChunks numbers (numbers.length / numChunksOf numbers.length)
      (numbers.length % numChunksOf numbers.length) (numChunksOf numbers.length)))
  simp only [processAndPrint, splitIntoChunks_eq numbers, hout]

theorem processAndPrint_prints (numbers : List Int) : (processAndPrint numbers).1 ≠ [] := by
  obtain ⟨out, hout, _⟩ := mergeSortedChunks_spec (sortChunksConcurrently
    (computedChunks numbers (numbers.length / numChunksOf numbers.length)
      (numbers.length % numChunksOf numbers.length) (numChunksOf numbers.length)))
  simp only [processAndPrint, splitIntoChunks_eq numbers, hout]
  simp

/-- A file that is not a regular `.txt` file read without error into at least
10 integers is passed over by the loop of `runDirectory`. -/
theorem dirLoop_skip (writable : String → Bool) (e : DirEntry) (rest : List DirEntry)
    (written : List (String × List Char)) (h : outputOf e = none) :
    dirLoop writable (e :: rest) written = dirLoop writable rest written := by
  simp only [outputOf] at h
  simp only [dirLoop]
  split_ifs at h ⊢ with h1
  · rfl
  · cases hr : readNumbersFromFile e.file with
    | error err => rfl
    | ok numbers =>
      rw [hr] at h
      simp only at h ⊢
      split_ifs at h ⊢ with h2
      · rfl
      · obtain ⟨out, hout, _⟩ := process_spec numbers
        rw [hout] at h
        cases h

/-- When every output file can be written, the loop of `runDirectory` writes
one file for each entry that has an output, in order, and returns no error. -/
theorem dirLoop_spec (writable : String → Bool) : ∀ (entries : List DirEntry)
    (written : List (String × List Char)),
    (∀ e ∈ entries, writable e.name = true) →
    dirLoop writable entries written = (written ++ entries.filterMap outputOf, none) := by
  intro entries
  induction entries with
  | nil => intro written _; simp [dirLoop]
  | cons e rest ih =>
    intro written hw
    have hrest : ∀ e ∈ rest, writable e.name = true :=
      fun x hx => hw x (List.mem_cons_of_mem _ hx)
    cases ho : outputOf e with
    | none =>
      rw [dirLoop_skip writable e rest written ho, ih written hrest]
      simp [List.filterMap_cons, ho]
    | some out =>
      have hwe : writable e.name = true := hw e (List.mem_cons_self _ _)
      simp only [outputOf] at ho
      simp only [dirLoop]
      split_ifs at ho ⊢ with h1
      cases hr : readNumbersFromFile e.file with
      | error err => rw [hr] at ho; cases ho
      | ok numbers =>
        rw [hr] at ho
        simp only at ho ⊢
        split_ifs at ho ⊢ with h2
        cases hp : process numbers with
        | error f => rw [hp] at ho; cases ho
        | ok sorted =>
          rw [hp] at ho
          simp only [Option.some.injEq] at ho
          simp only [writeNumbersToFile, hwe, if_true]
          rw [ih _ hrest]
          have ho2 : outputOf e = some out := by
            simp only [outputOf, h1, hr, h2, hp, ho]
            simp
          simp [List.filterMap_cons, ho2, ← ho]

/-- The loop of `runDirectory` stops only on a file it cannot write. -/
theorem dirLoop_error (writable : String → Bool) : ∀ (entries : List DirEntry)
    (written : List (String × List Char)) (err : RunErr),
    (dirLoop writable entries written).2 = some err → ∃ name, err = .write name := by
  intro entries
  induction entries with
  | nil => intro written err h; simp [dirLoop] at h
  | cons e rest ih =>
    intro written err h
    simp only [dirLoop] at h
    split_ifs at h with h1
    · exact ih written err h
    · cases hr : readNumbersFromFile e.file with
      | error e2 => rw [hr] at h; exact ih written err h
      | ok numbers =>
        rw [hr] at h
        simp only at h
        split_ifs at h with h2
        · exact ih written err h
        · obtain ⟨out, hout, _⟩ := process_spec numbers
          rw [hout] at h
          simp only [writeNumbersToFile] at h
          split_ifs at h with hw
          · exact ih _ err h
          · simp only [Option.some.injEq] at h
            exact ⟨e.name, h.symm⟩

theorem runDirectory_ok (dirName : String) (dir : Dir) (entries : List DirEntry)
    (hv : dir.valid = true) (hm : dir.canMkdir = true) (hl : dir.listing = some entries)
    (hw : ∀ e ∈ entries, dir.writable e.name = true) :
    (runDirectory dirName dir).error = none ∧
      (runDirectory dirName dir).written = entries.filterMap outputOf := by
  simp only [runDirectory, hv, hm, hl, dirLoop_spec dir.writable entries [] hw]
  simp

theorem runDirectory_error (dirName : String) (dir : Dir) (err : RunErr)
    (h : (runDirectory dirName dir).error = some err) :
    err = .invalidDirectory ∨ err = .mkdir ∨ err = .readDir ∨ ∃ name, err = .write name := by
  simp only [runDirectory] at h
  split_ifs at h with h1 h2
  · simp only [Option.some.injEq] at h
    exact Or.inl h.symm
  · simp only [Option.some.injEq] at h
    exact Or.inr (Or.inl h.symm)
  · cases hl : dir.listing with
    | none =>
      rw [hl] at h
      simp only [Option.some.injEq] at h
      exact Or.inr (Or.inr (Or.inl h.symm))
    | some entries =>
      rw [hl] at h
      simp only at h
      cases he : (dirLoop dir.writable entries []).2 with
      | none => rw [he] at h; cases h
      | some e2 =>
        rw [he] at h
        simp only [Option.some.injEq] at h
        rw [← h]
        exact Or.inr (Or.inr (Or.inr (dirLoop_error dir.writable entries [] e2 he)))

set_option maxRecDepth 100000 in
theorem read_trailing_garbage :
    readNumbersFromFile (.content "12abc\n".toList) = .ok [12] ∧
      readNumbersFromFile (.content "1 2\n".toList) = .ok [1] ∧
      readNumbersFromFile (.content "7\nabc\n".toList) = .error (.invalidInteger 2) ∧
      (runInputFile (.content "12abc\n1\n2\n3\n4\n5\n6\n7\n8\n9\n".toList)).error = none := by
  decide

set_option maxRecDepth 100000 in
theorem runDirectory_example :
    runDirectory "in"
        { valid := true, canMkdir := true,
          listing := some [⟨"a.txt", false, .missing⟩,
            ⟨"b.txt", false, .content "9\n8\n7\n6\n5\n4\n3\n2\n1\n0\n".toList⟩],
          writable := fun _ => true } =
      { printed := [Printed.line "Sorted files saved in directory: in_sorted_Nandana_Subhash_241ADB029"],
        written := [("b.txt", "0\n1\n2\n3\n4\n5\n6\n7\n8\n9\n".toList)],
        error := none } := by decide

theorem int64_bounds_example :
    ∀ x ∈ [5, -3, 0, 9223372036854775807, -9223372036854775808],
      -(2 : Int) ^ 63 ≤ x ∧ x < (2 : Int) ^ 63 := by decide

/-! ## The claims of the specification, continued -/

/-- C11. `process` is idempotent on values: for every integer sequence `S`,
`process S` returns some `out`, and `process out` returns `out` again. -/
theorem process_idempotent (S : List Int) :
    ∃ out, process S = .ok out ∧ process out = .ok out := by
  obtain ⟨out, hout, _, hs⟩ := process_spec S
  obtain ⟨out2, hout2, hp2, hs2⟩ := process_spec out
  have : out2 = out := List.eq_of_perm_of_sorted hp2 hs2 hs
  rw [this] at hout2
  exact ⟨out, hout, hout2⟩

/-- C12. `process` is total and never panics.  For every sequence `S` it
returns a value; at the start of every iteration `i` of the loop of
`splitIntoChunks` the slice bounds satisfy `index + size ≤ len(numbers)`; and
for every list of chunks the merge loop runs to its end through states in
which no cursor is beyond the end of its chunk and the pass over the cursors,
which reads `chunks[i][indices[i]]` only below `len(chunks[i])`, completes
without an out-of-range access. -/
theorem process_never_panics (S : List Int) :
    (∃ chunks out, splitIntoChunks S = .ok chunks ∧
      mergeSortedChunks (sortChunksConcurrently chunks) = .ok out ∧ process S = .ok out) ∧
    (∀ i, i < numChunksOf S.length → ∃ (done : List (List Int)) (idx : Nat),
      (List.range i).foldlM (splitStep S (S.length / numChunksOf S.length)
        (S.length % numChunksOf S.length)) ([], 0) = .ok (done, idx) ∧
      idx + chunkSize (S.length / numChunksOf S.length)
        (S.length % numChunksOf S.length) i ≤ S.length) ∧
    (∀ chunks : List (List Int), ∃ tr,
      mergeTrace chunks (totalLength chunks + 1) (mergeStart chunks) = .ok tr ∧
      ∀ s ∈ tr, (∃ sc, scan chunks s.indices = .ok sc) ∧
        ∀ (i cursor : Nat) (chunk : List Int), s.indices[i]? = some cursor →
          chunks[i]? = some chunk → cursor ≤ chunk.length) := by
  have hk : 0 < numChunksOf S.length := by have := numChunksOf_ge S.length; omega
  have htot := chunkOffset_total S.length (numChunksOf S.length) hk
  refine ⟨?_, ?_, ?_⟩
  · obtain ⟨out, hout, _⟩ := mergeSortedChunks_spec (sortChunksConcurrently
      (computedChunks S (S.length / numChunksOf S.length)
        (S.length % numChunksOf S.length) (numChunksOf S.length)))
    refine ⟨_, out, splitIntoChunks_eq S, hout, ?_⟩
    simp only [process, splitIntoChunks_eq S, bind, Except.bind]
    exact hout
  · intro i hi
    have h1 := chunkOffset_mono (S.length / numChunksOf S.length)
      (S.length % numChunksOf S.length) (Nat.succ_le_of_lt hi)
    rw [htot, chunkOffset_succ] at h1
    exact ⟨_, _, splitLoop_upto S _ _ i (by omega), h1⟩
  · intro chunks
    obtain ⟨tr, _, htr, _, _, hbounds, _⟩ := mergeTrace_start chunks
    refine ⟨tr, htr, fun s hs => ⟨?_, (hbounds s hs).2⟩⟩
    obtain ⟨sc, hsc, _⟩ := scan_spec chunks s.indices (hbounds s hs).1
    exact ⟨sc, hsc⟩

/-- C13. `sortChunksConcurrently` blocks until every chunk is sorted.  In
every state `s` reached by any interleaving of the steps of the caller and of
the goroutines: `wg.Wait()` can return only if every goroutine has run its
`wg.Done()`; if the caller has returned, every goroutine has finished and the
chunks are the sorted chunks; if it has not, some step can still be taken;
and an interleaving has at most `4 * len(chunks) + 1` steps, so the call does
return. -/
theorem sortChunksConcurrently_waits (chunks : List (List Int)) (schedule : List Event)
    (s : Conc) (h : (Conc.init chunks).run schedule = some s) :
    ((∃ s', s.step .ret = some s') → ∀ i, i < chunks.length → s.phases[i]? = some .done) ∧
    (s.main = .returned →
      (∀ i, i < chunks.length → s.phases[i]? = some .done) ∧
        s.chunks = sortChunksConcurrently chunks) ∧
    (s.main ≠ .returned → ∃ e s', s.step e = some s') ∧
    schedule.length ≤ 4 * chunks.length + 1 := by
  obtain ⟨hinv, hsteps⟩ := ConcInv_run chunks schedule _ s (ConcInv_init chunks) h
  rw [stepsLeft_init] at hsteps
  refine ⟨?_, ?_, ConcInv_progress chunks s hinv, by omega⟩
  · rintro ⟨s', hs'⟩
    simp only [Conc.step] at hs'
    split_ifs at hs' with hc
    exact (ConcInv_all_done chunks s hinv hc.2).1
  · intro hret
    have hp0 : pendingCount s.phases = 0 := by
      have := hinv.2.2.2.2
      rw [hret] at this
      exact this
    exact ConcInv_all_done chunks s hinv (by rw [hinv.2.2.1, hp0]; rfl)

/-- Two goroutines, the second finishing first: once the caller has returned
both chunks are sorted. -/
theorem sortChunksConcurrently_waits_witness :
    (Conc.init [[3, 1], [2, 0]]).run
        [.spawn, .begin 0, .spawn, .begin 1, .finish 1, .done 1, .finish 0, .done 0, .ret] =
      some ⟨.returned, 0, [.done, .done], [[1, 3], [0, 2]]⟩ ∧
    (((∃ s', (Conc.mk .returned 0 [.done, .done] [[1, 3], [0, 2]]).step .ret = some s') →
        ∀ i, i < [[3, 1], [2, 0]].length →
          (Conc.mk .returned 0 [.done, .done] [[1, 3], [0, 2]]).phases[i]? = some .done) ∧
      ((Conc.mk .returned 0 [.done, .done] [[1, 3], [0, 2]]).main = .returned →
        (∀ i, i < [[3, 1], [2, 0]].length →
          (Conc.mk .returned 0 [.done, .done] [[1, 3], [0, 2]]).phases[i]? = some .done) ∧
        (Conc.mk .returned 0 [.done, .done] [[1, 3], [0, 2]]).chunks =
          sortChunksConcurrently [[3, 1], [2, 0]]) ∧
      ((Conc.mk .returned 0 [.done, .done] [[1, 3], [0, 2]]).main ≠ .returned →
        ∃ e s', (Conc.mk .returned 0 [.done, .done] [[1, 3], [0, 2]]).step e = some s') ∧
      [Event.spawn, .begin 0, .spawn, .begin 1, .finish 1, .done 1, .finish 0, .done 0,
        .ret].length ≤ 4 * [[3, 1], [2, 0]].length + 1) :=
  ⟨run_two_goroutines,
    sortChunksConcurrently_waits [[3, 1], [2, 0]]
      [.spawn, .begin 0, .spawn, .begin 1, .finish 1, .done 1, .finish 0, .done 0, .ret]
      ⟨.returned, 0, [.done, .done], [[1, 3], [0, 2]]⟩ run_two_goroutines⟩

/-- C14 (the code departs from the claim).  `readNumbersFromFile` does not
reject every line that is not a valid integer: the line `12abc` is read as 12
and the line `1 2` as 1, without error, because the scan with `%d` stops at
the first character that is not a digit; a file with such a line and nine
more integers is sorted by `runInputFile` without error.  A line without a
leading integer, such as `abc` on line 2, is rejected with its line number. -/
theorem readNumbersFromFile_accepts_trailing_text :
    readNumbersFromFile (.content "12abc\n".toList) = .ok [12] ∧
      readNumbersFromFile (.content "1 2\n".toList) = .ok [1] ∧
      readNumbersFromFile (.content "7\nabc\n".toList) = .error (.invalidInteger 2) ∧
      (runInputFile (.content "12abc\n1\n2\n3\n4\n5\n6\n7\n8\n9\n".toList)).error = none :=
  read_trailing_garbage

/-- C15, as stated, fails: a `.txt` file that cannot be opened does not make
`runDirectory` return an error; the file is skipped and its sibling is sorted
and written. -/
theorem runDirectory_unreadable_file_not_fatal :
    readNumbersFromFile File.missing = .error .cannotOpen ∧
      (runDirectory "in"
        { valid := true, canMkdir := true,
          listing := some [⟨"a.txt", false, .missing⟩,
            ⟨"b.txt", false, .content "9\n8\n7\n6\n5\n4\n3\n2\n1\n0\n".toList⟩],
          writable := fun _ => true }).error = none ∧
      (runDirectory "in"
        { valid := true, canMkdir := true,
          listing := some [⟨"a.txt", false, .missing⟩,
            ⟨"b.txt", false, .content "9\n8\n7\n6\n5\n4\n3\n2\n1\n0\n".toList⟩],
          writable := fun _ => true }).written =
        [("b.txt", "0\n1\n2\n3\n4\n5\n6\n7\n8\n9\n".toList)] := by
  rw [runDirectory_example]
  exact ⟨rfl, rfl, rfl⟩

/-- C15, amended.  A failure to open an input file is fatal in single-file
mode: `runInputFile` returns the error and prints nothing.  In batch mode it
is not: the loop of `runDirectory` passes over a file that
`readNumbersFromFile` cannot read and goes on with the remaining entries;
`runDirectory` returns an error only for an invalid directory, a failure to
create the output directory or to list the directory, or an output file it
cannot write; and when the directory is valid and every output file can be
written it returns no error and writes the output of every readable file. -/
theorem runDirectory_skips_unreadable_files :
    runInputFile File.missing = Outcome.mk [] [] (some (.read .cannotOpen)) ∧
    (∀ (writable : String → Bool) (e : DirEntry) (rest : List DirEntry)
      (written : List (String × List Char)) (err : ReadErr),
      readNumbersFromFile e.file = .error err →
        outputOf e = none ∧
          dirLoop writable (e :: rest) written = dirLoop writable rest written) ∧
    (∀ (dirName : String) (dir : Dir) (err : RunErr),
      (runDirectory dirName dir).error = some err →
        err = .invalidDirectory ∨ err = .mkdir ∨ err = .readDir ∨
          ∃ name, err = .write name) ∧
    (∀ (dirName : String) (dir : Dir) (entries : List DirEntry),
      dir.valid = true → dir.canMkdir = true → dir.listing = some entries →
      (∀ e ∈ entries, dir.writable e.name = true) →
        (runDirectory dirName dir).error = none ∧
          (runDirectory dirName dir).written = entries.filterMap outputOf) := by
  refine ⟨rfl, ?_, runDirectory_error, runDirectory_ok⟩
  intro writable e rest written err hr
  have ho : outputOf e = none := by
    simp only [outputOf, hr]
    split_ifs <;> rfl
  exact ⟨ho, dirLoop_skip writable e rest written ho⟩

/-- C16. Fewer than 10 values are rejected before anything is produced.
`runRandom n` returns the error `N must be >= 10` and prints nothing when
`n < 10`, and returns no error otherwise; `runInputFile` returns an error and
prints nothing when the file is read into fewer than 10 integers; in
`runDirectory` such a file has no output and the loop goes on with the
remaining entries, so that, when every output file can be written, no error is
returned and the output of every other file is written. -/
theorem too_few_values_rejected :
    (∀ (n : Int) (draws : Nat → Nat),
      (n < 10 → runRandom n draws = Outcome.mk [] [] (some (.message "N must be >= 10"))) ∧
      (¬ n < 10 → (runRandom n draws).error = none ∧ (runRandom n draws).printed ≠ [])) ∧
    (∀ (file : File) (numbers : List Int),
      readNumbersFromFile file = .ok numbers → numbers.length < 10 →
        runInputFile file = Outcome.mk [] []
          (some (.message "input file must contain at least 10 valid integers"))) ∧
    (∀ (writable : String → Bool) (e : DirEntry) (rest : List DirEntry)
      (written : List (String × List Char)) (numbers : List Int),
      readNumbersFromFile e.file = .ok numbers → numbers.length < 10 →
        outputOf e = none ∧
          dirLoop writable (e :: rest) written = dirLoop writable rest written) ∧
    (∀ (dirName : String) (dir : Dir) (entries : List DirEntry),
      dir.valid = true → dir.canMkdir = true → dir.listing = some entries →
      (∀ e ∈ entries, dir.writable e.name = true) →
        (runDirectory dirName dir).error = none ∧
          (runDirectory dirName dir).written = entries.filterMap outputOf) := by
  refine ⟨fun n draws => ⟨fun h => ?_, fun h => ?_⟩, ?_, ?_, runDirectory_ok⟩
  · simp only [runRandom, if_pos h]
  · simp only [runRandom, if_neg h, processAndPrint_no_fault]
    exact ⟨rfl, by simp⟩
  · intro file numbers hr hlen
    simp only [runInputFile, hr, if_pos hlen]
  · intro writable e rest written numbers hr hlen
    have ho : outputOf e = none := by
      simp only [outputOf, hr, if_pos hlen]
      split_ifs <;> rfl
    exact ⟨ho, dirLoop_skip writable e rest written ho⟩

/-- C17. In every iteration of the merge loop that appends an element, the
chunk `j` whose cursor is advanced has a cursor element `v` that is least
among the cursor elements of the chunks not yet exhausted, every chunk of
lower index that is not exhausted has a strictly larger cursor element, and
the value appended is `v`. -/
theorem mergeLoop_selects_least (chunks : List (List Int)) :
    ∃ tr, mergeTrace chunks (totalLength chunks + 1) (mergeStart chunks) = .ok tr ∧
      ∀ (t : Nat) (s s' : MergeState), tr[t]? = some s → tr[t + 1]? = some s' →
        ∃ (j cursor : Nat) (v : Int), s.indices[j]? = some cursor ∧
          cursorVal chunks s.indices j = some v ∧
          (∀ (i : Nat) (w : Int), cursorVal chunks s.indices i = some w →
            v ≤ w ∧ (i < j → v < w)) ∧
          s'.indices = s.indices.set j (cursor + 1) ∧ s'.result = s.result ++ [v] := by
  obtain ⟨tr, _, htr, _, hsteps, _⟩ := mergeTrace_start chunks
  exact ⟨tr, htr, hsteps⟩

/-- C18. The tie-break does not affect the output values: on every list of
chunks each of which is non-decreasing, the merge that prefers the larger
chunk index on ties (comparison `val <= minVal`) returns exactly the sequence
that `mergeSortedChunks` returns. -/
theorem tie_break_irrelevant (chunks : List (List Int))
    (h : ∀ chunk ∈ chunks, chunk.Sorted (· ≤ ·)) :
    ∃ out, mergeSortedChunks chunks = .ok out ∧ mergeSortedChunksLe chunks = .ok out := by
  obtain ⟨out, hout, hp, hs⟩ := mergeSortedChunks_spec chunks
  obtain ⟨out2, hout2, hp2, hs2⟩ := mergeSortedChunksLe_spec chunks
  have : out2 = out :=
    List.eq_of_perm_of_sorted (hp2.trans hp.symm) (hs2 h) (hs h)
  rw [this] at hout2
  exact ⟨out, hout, hout2⟩

/-- Three sorted chunks with ties across chunks are merged to the same
sequence under both tie-breaks. -/
theorem tie_break_irrelevant_witness :
    (∀ chunk ∈ [[1, 2], [1, 3], [2]], chunk.Sorted (· ≤ ·)) ∧
      (∃ out, mergeSortedChunks [[1, 2], [1, 3], [2]] = .ok out ∧
        mergeSortedChunksLe [[1, 2], [1, 3], [2]] = .ok out) ∧
      mergeSortedChunks [[1, 2], [1, 3], [2]] = .ok [1, 1, 2, 2, 3] :=
  ⟨by decide, tie_break_irrelevant [[1, 2], [1, 3], [2]] (by decide), tie_break_example.1⟩

/-- C19. For every list of chunks the merge loop terminates: it goes through
one state per element of the chunks and one more, that is, it makes exactly as
many select-and-append steps as there are elements; each step advances one
cursor by one and appends one element; in the last state every cursor is at
the end of its chunk, the loop breaks, and the output of that state is the
result.  The 20 ones of Scenario 3 are merged in exactly 20 steps. -/
theorem mergeLoop_terminates (chunks : List (List Int)) :
    (∃ tr fin, mergeTrace chunks (totalLength chunks + 1) (mergeStart chunks) = .ok tr ∧
      tr.length = (chunks.map List.length).sum + 1 ∧
      (∀ (t : Nat) (s s' : MergeState), tr[t]? = some s → tr[t + 1]? = some s' →
        ∃ j cursor, s.indices[j]? = some cursor ∧
          s'.indices = s.indices.set j (cursor + 1) ∧
          s'.result.length = s.result.length + 1) ∧
      tr.getLast? = some fin ∧ fin.indices = chunks.map List.length ∧
      mergeStep chunks fin = .ok none ∧
      mergeLoop chunks (totalLength chunks + 1) (mergeStart chunks) = .ok fin.result) ∧
    (∃ ones tr, (splitIntoChunks (List.replicate 20 1)).map sortChunksConcurrently =
        .ok ones ∧
      mergeTrace ones (totalLength ones + 1) (mergeStart ones) = .ok tr ∧
      tr.length = 20 + 1) := by
  constructor
  · obtain ⟨tr, fin, htr, hlen, hsteps, _, hlast, hfin, hidx, hloop⟩ :=
      mergeTrace_start chunks
    refine ⟨tr, fin, htr, by rw [hlen, List.length_flatten], ?_, hlast, hidx, hfin, hloop⟩
    intro t s s' h1 h2
    obtain ⟨j, cursor, v, hi, _, _, hset, hres⟩ := hsteps t s s' h1 h2
    exact ⟨j, cursor, hi, hset, by rw [hres]; simp⟩
  · obtain ⟨tr, _, htr, hlen, _⟩ := mergeTrace_start (List.replicate 5 (List.replicate 4 1))
    exact ⟨_, tr, chunks_twenty_ones, htr, by rw [hlen]; rfl⟩

/-- C20. The text `writeNumbersToFile` writes for a list of 64-bit integers is
read back by `readNumbersFromFile` as exactly that list: same values, same
order, negative values included. -/
theorem write_read_round_trip (L : List Int)
    (h : ∀ x ∈ L, -(2 : Int) ^ 63 ≤ x ∧ x < (2 : Int) ^ 63) :
    writeNumbersToFile true L = some (fileText L) ∧
      readNumbersFromFile (.content (fileText L)) = .ok L := by
  refine ⟨rfl, ?_⟩
  simp only [readNumbersFromFile, splitLines_fileText, readLines_formatInt L h, bind,
    Except.bind, pure, Except.pure, List.nil_append]

/-- A list with a negative value, zero and the two extreme 64-bit values is
written and read back unchanged. -/
theorem write_read_round_trip_witness :
    (∀ x ∈ [5, -3, 0, 9223372036854775807, -9223372036854775808],
      -(2 : Int) ^ 63 ≤ x ∧ x < (2 : Int) ^ 63) ∧
    writeNumbersToFile true [5, -3, 0, 9223372036854775807, -9223372036854775808] =
      some (fileText [5, -3, 0, 9223372036854775807, -9223372036854775808]) ∧
    readNumbersFromFile
        (.content (fileText [5, -3, 0, 9223372036854775807, -9223372036854775808])) =
      .ok [5, -3, 0, 9223372036854775807, -9223372036854775808] :=
  ⟨int64_bounds_example,
    write_read_round_trip [5, -3, 0, 9223372036854775807, -9223372036854775808]
      int64_bounds_example⟩

end GoSort
